import Mathlib

/-
  Verification of the incremental ingestion and cache subsystem of
  node-elm-review (src/lib/options.js, src/lib/error-message.js).

  The embedding models the filesystem as an association list from paths to
  entries, the in-memory session cache and the durable content-hash cache as
  association lists, and the observable I/O of one ingestion pass (stats,
  content reads, parse dispatches, durable-cache writes, worker-pool
  lifecycle) as an event trace threaded through a state record.  Paths are
  strings over the separator "/"; the embedding identifies a path with its
  form relative to the process working directory and assumes the working
  directory is the project root, under which fsReadFile(filePath) and
  fsStat(relativeFilePath) address the same file.  Concurrent I/O
  (Promise.all) is modelled by a sequential pass in list order.
-/

namespace ElmReview

/-- Abstract parsed representation (AST); the parser is modelled as an
oracle in the environment, so the payload is opaque. -/
abbrev Ast := Nat

/-- A filesystem entry: a readable file, or a file whose content read fails
with the given error message (stat still succeeds on it). -/
inductive FsEntry where
  | file (content : String) (mtime : Nat)
  | unreadable (errMsg : String) (mtime : Nat)
  deriving DecidableEq, Repr

/-- The filesystem: an association list from path to entry. -/
abbrev FileSystem := List (String × FsEntry)

/-- Observable I/O events of one ingestion pass. -/
inductive Ev where
  | statMtime (filePath : String)
  | readContent (filePath : String)
  | parseDispatch (source : String)
  | cacheWrite (key : Nat)
  | prepare
  | terminate
  deriving DecidableEq, Repr

/-- The record readFile produces for one file, which is also the shape of an
in-memory cache entry: {path, source, lastUpdatedTime, ast}; ast is none when
the parse failed, lastUpdatedTime is none outside watch mode. -/
structure FileRecord where
  path : String
  source : String
  lastUpdatedTime : Option Nat
  ast : Option Ast
  deriving DecidableEq, Repr

/-- The decoded manifest: a type field and, for applications, the declared
source-directories. -/
structure ElmJson where
  type : String
  sourceDirectories : List String
  deriving DecidableEq, Repr

/-- The error channel of the ingestion pass: CustomError from
src/lib/error-message.js carries a title and a message; a SyntaxError thrown
by JSON.parse and other re-thrown raw errors are unstructured. -/
inductive IngestError where
  | customError (title : String) (message : String)
  | jsonSyntaxError (raw : String)
  | rawError (message : String)
  deriving DecidableEq, Repr

/-- A structured error is a CustomError (title + message), per
src/lib/error-message.js; raw JSON SyntaxErrors and re-thrown fs errors are
not structured. -/
def isStructuredError : IngestError → Bool
  | .customError _ _ => true
  | _ => false

/-- The environment: the external parser (elmParser.parse returns null on a
parse failure, modelled as none) and the external JSON decoder (JSON.parse
throws on malformed input, modelled as none). -/
structure Env where
  parse : String → Option Ast
  jsonParse : String → Option ElmJson

/-- The configuration the CLI layer supplies (a slice of the object built by
compute in src/lib/options.js). -/
structure Opts where
  watch : Bool
  elmJsonPath : String
  elmJsonPathWasSpecified : Bool
  readmePath : String
  directoriesToAnalyze : List String
  projectToReview : String
  cwd : String
  deriving DecidableEq, Repr

/-- Process-wide state threaded through a pass: the filesystem, the
in-memory session cache (appState, keyed by relative path), the durable
cache (keyed by content hash), the worker-pool flag, and the event trace. -/
structure St where
  fs : FileSystem
  memoryCache : List (String × FileRecord)
  fileCache : List (Nat × Ast)
  workersPrepared : Bool
  events : List Ev
  deriving DecidableEq, Repr

/-- Association-list lookup on the filesystem. -/
def fsLookup (fs : FileSystem) (p : String) : Option FsEntry :=
  (fs.find? (fun e => e.fst == p)).map (fun e => e.snd)

/-- The mtime of an entry (stat succeeds on unreadable files too). -/
def FsEntry.mtimeOf : FsEntry → Nat
  | .file _ t => t
  | .unreadable _ t => t

/-- Embeds fsReadLatestUpdatedTime: fsStat(path).then(stat => stat.mtime);
none when the stat itself fails (no such file). -/
def fsReadLatestUpdatedTime (fs : FileSystem) (filePath : String) : Option Nat :=
  (fsLookup fs filePath).map FsEntry.mtimeOf

/-- Embeds fsReadFile(path, utf8): the content, or the message of the error
the promise rejects with. -/
def fsReadFile (fs : FileSystem) (filePath : String) : Except String String :=
  match fsLookup fs filePath with
  | some (.file content _) => .ok content
  | some (.unreadable msg _) => .error msg
  | none => .error ("ENOENT: no such file or directory, open " ++ filePath)

/-- Lookup in the in-memory session cache. -/
def memLookup (m : List (String × FileRecord)) (k : String) : Option FileRecord :=
  (m.find? (fun e => e.fst == k)).map (fun e => e.snd)

/-- Lookup in the durable cache by content-hash key. -/
def cacheLookup (c : List (Nat × Ast)) (k : Nat) : Option Ast :=
  (c.find? (fun e => e.fst == k)).map (fun e => e.snd)

/-- Modelled from the spec: the durable cache is keyed by a hash of the exact
byte content (the hashing lives in cache.js, which is not under src/); the
spec assumes the hash is effectively collision-free, so any concrete function
of the content serves the embedding. -/
def contentHash (source : String) : Nat :=
  source.data.foldl (fun h c => h * 131 + c.toNat + 1) 7

/-- The lower-cased string (String.toLower, written over the character list
so that it evaluates inside the kernel). -/
def lowerStr (s : String) : String := String.mk (s.data.map Char.toLower)

/-- Prefix test on strings (String.isPrefixOf, over the character lists). -/
def strHasPre (pre s : String) : Bool := pre.data.isPrefixOf s.data

/-- Suffix test on strings (String.endsWith, over the character lists). -/
def strEndsWith (s post : String) : Bool := post.data.isSuffixOf s.data

/-- Modelled from the spec: cache.readAstFromFSCache looks the durable
on-disk cache up by the hash of the content (cache.js is not under src/). -/
def readAstFromFSCache (st : St) (source : String) : Option Ast :=
  cacheLookup st.fileCache (contentHash source)

/-- Modelled from the spec: cache.cacheFile persists a successful parse in
the durable cache under the content hash (cache.js is not under src/). -/
def cacheFile (st : St) (source : String) (ast : Ast) : St :=
  { st with fileCache := (contentHash source, ast) :: st.fileCache,
            events := st.events ++ [Ev.cacheWrite (contentHash source)] }

/-- Embeds readAst from src/lib/options.js: consult the durable cache first;
on a miss dispatch elmParser.parse and, only when the result is not null,
persist it with cache.cacheFile. -/
def readAst (env : Env) (st : St) (source : String) : Option Ast × St :=
  match readAstFromFSCache st source with
  | some result => (some result, st)
  | none =>
    let st1 : St := { st with events := st.events ++ [Ev.parseDispatch source] }
    match env.parse source with
    | some ast => (some ast, cacheFile st1 source ast)
    | none => (none, st1)

/-- path.join of a directory and one further component. -/
def pathJoin (a b : String) : String := a ++ "/" ++ b

/-- path.resolve of one component against the working directory (no
normalization of dot segments, enough for the embedding). -/
def pathResolve (cwd p : String) : String :=
  if strHasPre "/" p then p else cwd ++ "/" ++ p

/-- Splitting on the separator, structurally over the character list
(p.split(path.sep), which is splitOn "/"). -/
def splitSegsAux : List Char → List Char → List String
  | [], acc => [String.mk acc.reverse]
  | c :: cs, acc =>
    if c = '/' then String.mk acc.reverse :: splitSegsAux cs []
    else splitSegsAux cs (c :: acc)

/-- The segments of a path (path.sep is "/"). -/
def splitPath (p : String) : List String := splitSegsAux p.data []

/-- path.dirname: all segments but the last. -/
def pathDirname (p : String) : String :=
  String.intercalate "/" (splitPath p).dropLast

/-- path.relative(base, p) under the assumption that p, when under base, is
written base/rest (the embedding does not synthesize dot-dot segments). -/
def pathRelative (base p : String) : String :=
  if strHasPre (base ++ "/") p then p.drop (base ++ "/").length else p

/-- The JavaScript >= between the stored lastUpdatedTime (possibly null) and
the freshly observed one: null coerces to 0 under relational comparison. -/
def jsGE (a b : Option Nat) : Bool := decide (b.getD 0 ≤ a.getD 0)

/-- The message of the CustomError thrown when a source read fails
(src/lib/options.js, readFile): it carries the relative path and the
underlying error message. -/
def readErrorMessage (relativeFilePath errMsg : String) : String :=
  "I could not read the following file: " ++ relativeFilePath
    ++ "\n\nOriginal error message: " ++ errMsg

/-- The tail of readFile once the in-memory shortcut did not fire: read the
content (a failure becomes the UNEXPECTED ERROR WHEN READING THE FILE
CustomError), reuse the cached ast when the cached source equals the fresh
content, otherwise go through readAst. -/
def readSourceNow (env : Env) (st0 : St) (relativeFilePath filePath : String)
    (lastUpdatedTime : Option Nat) (cachedFile : Option FileRecord) :
    Except IngestError FileRecord × St :=
  let st1 : St := { st0 with events := st0.events ++ [Ev.readContent filePath] }
  match fsReadFile st0.fs filePath with
  | .error msg =>
      (.error (.customError "UNEXPECTED ERROR WHEN READING THE FILE"
        (readErrorMessage relativeFilePath msg)), st1)
  | .ok source =>
      let cachedAst : Option Ast :=
        match cachedFile with
        | some c => if c.source == source then c.ast else none
        | none => none
      match cachedAst with
      | some ast =>
          (.ok { path := relativeFilePath, source := source,
                 lastUpdatedTime := lastUpdatedTime, ast := some ast }, st1)
      | none =>
          match readAst env st1 source with
          | (ast, st2) =>
              (.ok { path := relativeFilePath, source := source,
                     lastUpdatedTime := lastUpdatedTime, ast := ast }, st2)

/-- Embeds readFile from src/lib/options.js.  In watch mode the file is
statted (the source stats the path relative to the project root; the
embedding addresses the same file) and the in-memory cache is consulted
(appState.getFileFromMemoryCache; state.js is not under src/, the lookup is
modelled as an association-list read keyed by the relative path): when a
cached entry exists whose stored lastUpdatedTime is >= the observed mtime
the cached record is returned as is.  Otherwise the content is read. -/
def readFile (env : Env) (opts : Opts) (relativePathToElmJson : String)
    (st : St) (filePath : String) : Except IngestError FileRecord × St :=
  let relativeFilePath := pathRelative relativePathToElmJson filePath
  if opts.watch then
    match fsReadLatestUpdatedTime st.fs filePath with
    | none =>
        (.error (.rawError ("ENOENT: no such file or directory, stat " ++ relativeFilePath)),
         { st with events := st.events ++ [Ev.statMtime filePath] })
    | some t =>
        let st1 : St := { st with events := st.events ++ [Ev.statMtime filePath] }
        match memLookup st.memoryCache relativeFilePath with
        | some cachedFile =>
            if jsGE cachedFile.lastUpdatedTime (some t) then
              (.ok cachedFile, st1)
            else
              readSourceNow env st1 relativeFilePath filePath (some t) (some cachedFile)
        | none => readSourceNow env st1 relativeFilePath filePath (some t) none
  else
    readSourceNow env st relativeFilePath filePath none none

/-- Embeds the flatMap helper of src/lib/options.js (reduce + concat). -/
def flatMap (l : List α) (f : α → List β) : List β :=
  l.foldl (fun result item => result ++ f item) []

/-- Case-insensitive string comparison (the nocase glob option). -/
def ciEq (a b : String) : Bool := lowerStr a == lowerStr b

/-- Lower-cased segments of a path. -/
def segsLower (p : String) : List String := (splitPath p).map lowerStr

/-- A segment glob skips by default: one starting with a dot. -/
def isHiddenSeg (s : String) : Bool := strHasPre "." s

/-- The shared ignore patterns elm-stuff and node_modules: glob v7
builds the ignore matchers with dot:true and without nocase, so a path is
ignored exactly when one of its segments equals (case-sensitively) one of the
two names; the trailing-globstar matcher extends the match to the name as a
final segment, so the combination is plain segment equality. -/
def hasIgnoredSeg (p : String) : Bool :=
  (splitPath p).any (fun s => s == "elm-stuff" || s == "node_modules")

/-- Matcher for the glob pattern dir/**/*.elm with nocase: the directory
prefix matches segment by segment case-insensitively, ** spans zero or more
non-hidden segments, *.elm matches a non-hidden basename ending in .elm
case-insensitively (glob does not match dotfiles by default). -/
def globMatchElmUnder (dir p : String) : Bool :=
  (segsLower dir).isPrefixOf (segsLower p)
    && decide ((splitPath dir).length < (splitPath p).length)
    && ((splitPath p).drop (splitPath dir).length).all (fun s => !isHiddenSeg s)
    && strEndsWith (lowerStr p) ".elm"

/-- The per-directory scan result: {files, directory}. -/
structure DirectoryScanResult where
  files : List String
  directory : String
  deriving DecidableEq, Repr

/-- Embeds findFiles from src/lib/options.js: the first glob (the directory
string itself, nodir) contributes the path when it is a file, the second
(directory/**/*.elm) contributes every .elm file below the directory; both
run with nocase and the shared ignore patterns, and their results are
concatenated. -/
def findFiles (fs : FileSystem) (directory : String) : DirectoryScanResult :=
  let paths := fs.map (fun e => e.fst)
  { files :=
      paths.filter (fun p => ciEq p directory && !hasIgnoredSeg p)
        ++ paths.filter (fun p => globMatchElmUnder directory p && !hasIgnoredSeg p),
    directory := directory }

/-- True when the path is a file on disk (lstat would not say directory). -/
def isFileOnDisk (fs : FileSystem) (p : String) : Bool := (fsLookup fs p).isSome

/-- True when the path is a directory on disk: some file lies strictly below
it (lstat and existsSync are case-sensitive). -/
def isDirOnDisk (fs : FileSystem) (p : String) : Bool :=
  fs.any (fun e => (splitPath p).isPrefixOf (splitPath e.fst)
    && decide ((splitPath p).length < (splitPath e.fst).length))

/-- glob.sync of /**/*.elm with the given root, nocase, nodir and the shared
ignore patterns: the root is walked literally (case-sensitively), the star
segments are case-insensitive but skip dotfiles, the ignore match is a
case-sensitive segment match. -/
def globSyncElm (fs : FileSystem) (root : String) : List String :=
  (fs.map (fun e => e.fst)).filter (fun p =>
    (splitPath root).isPrefixOf (splitPath p)
      && decide ((splitPath root).length < (splitPath p).length)
      && ((splitPath p).drop (splitPath root).length).all (fun s => !isHiddenSeg s)
      && strEndsWith (lowerStr p) ".elm"
      && !hasIgnoredSeg p)

/-- Embeds getFiles from src/lib/options.js: a missing path contributes
nothing, a directory is expanded by glob.sync and each result (a file, since
nodir is set) goes back through resolveFilePath, which for a file reduces to
the singleton filtered by the elm-stuff exclusion; a plain file is returned
as is. -/
def getFiles (fs : FileSystem) (filename : String) : List String :=
  if isFileOnDisk fs filename then [filename]
  else if isDirOnDisk fs filename then
    flatMap (globSyncElm fs filename) (fun f =>
      [f].filter (fun c => !((splitPath c).contains "elm-stuff")))
  else []

/-- Embeds resolveFilePath from src/lib/options.js: getFiles filtered by the
exact-segment elm-stuff exclusion (candidate.split(path.sep).includes). -/
def resolveFilePath (fs : FileSystem) (filename : String) : List String :=
  (getFiles fs filename).filter (fun c => !((splitPath c).contains "elm-stuff"))

/-- Embeds getSourceDirectories from src/lib/options.js. -/
def getSourceDirectories (opts : Opts) (elmJson : ElmJson) : List String :=
  if !opts.directoriesToAnalyze.isEmpty then
    opts.directoriesToAnalyze.map (pathResolve opts.cwd)
  else if elmJson.type == "package" then
    [pathJoin opts.projectToReview "src", pathJoin opts.projectToReview "tests"]
  else
    elmJson.sourceDirectories.map (pathJoin opts.projectToReview)
      ++ [pathJoin opts.projectToReview "tests"]

/-- The message of the ELM.JSON NOT FOUND CustomError (text paraphrased
without changing its data: it names the path that was searched and picks the
detail line from elmJsonPathWasSpecified). -/
def elmJsonNotFoundMessage (opts : Opts) : String :=
  let details :=
    if opts.elmJsonPathWasSpecified then
      "Since you specified this path, I am assuming that you misconfigured the CLI arguments."
    else
      "Are you running inside an Elm project? If not, you may want to create one or to use the --elmjson flag."
  "I could not find the elm.json of the project to review. I was looking for it at:\n\n    "
    ++ opts.elmJsonPath ++ "\n\n" ++ details

/-- Embeds readElmJson from src/lib/options.js: an ENOENT becomes the
structured ELM.JSON NOT FOUND CustomError, any other read error is re-thrown
raw. -/
def readElmJson (opts : Opts) (st : St) : Except IngestError String :=
  match fsLookup st.fs opts.elmJsonPath with
  | some (.file content _) => .ok content
  | some (.unreadable msg _) => .error (.rawError msg)
  | none => .error (.customError "ELM.JSON NOT FOUND" (elmJsonNotFoundMessage opts))

/-- The readme record {path, content}. -/
structure Readme where
  path : String
  content : String
  deriving DecidableEq, Repr

/-- Embeds getReadme from src/lib/options.js: any failure is swallowed into
null. -/
def getReadme (opts : Opts) (st : St) (relativePathToElmJson : String) : Option Readme :=
  match fsLookup st.fs opts.readmePath with
  | some (.file content _) =>
      some { path := pathRelative relativePathToElmJson opts.readmePath, content := content }
  | _ => none

/-- The message of the NO FILES FOUND CustomError: it lists exactly the empty
directories, one "- dir" line each (surrounding text paraphrased). -/
def noFilesFoundMessage (emptyDirectories : List String) : String :=
  "I was expecting to find Elm files in all the paths that you passed, but I could\nnot find any in the following directories:\n"
    ++ String.intercalate "\n" (emptyDirectories.map (fun d => "- " ++ d))
    ++ "\n\nWhen I cannot find files in some of the directories, I am assuming that you\nmisconfigured the CLI arguments."

/-- Modelled from the spec: elmParser.prepareWorkers establishes the worker
pool before a batch (parse-elm.js is not under src/). -/
def prepareWorkers (st : St) : St :=
  { st with workersPrepared := true, events := st.events ++ [Ev.prepare] }

/-- Modelled from the spec: elmParser.terminateWorkers releases the worker
pool (parse-elm.js is not under src/). -/
def terminateWorkers (st : St) : St :=
  { st with workersPrepared := false, events := st.events ++ [Ev.terminate] }

/-- JavaScript Set-based deduplication: keeps the first occurrence, in
insertion order. -/
def dedupKeepFirst [BEq α] : List α → List α → List α
  | [], _ => []
  | a :: l, seen =>
    if seen.contains a then dedupKeepFirst l seen
    else a :: dedupKeepFirst l (a :: seen)

/-- The per-directory scans of one pass. -/
def scanResults (opts : Opts) (st : St) (elmJson : ElmJson) : List DirectoryScanResult :=
  (getSourceDirectories opts elmJson).map (findFiles st.fs)

/-- The deduplicated list of files to read ([...new Set(flatMap(...))]). -/
def elmFilesToRead (opts : Opts) (st : St) (elmJson : ElmJson) : List String :=
  dedupKeepFirst (flatMap (scanResults opts st elmJson) (fun d => d.files)) []

/-- The sequential model of Promise.all(elmFilesToRead.map(readFile)): the
files are processed in list order and the first failure aborts the batch.
Per-file results and error propagation do not depend on the interleaving;
the cold-pass parse count does, and is treated by the concurrent batch
model (stepTask/runBatch). -/
def processFiles (env : Env) (opts : Opts) (relativePathToElmJson : String) :
    St → List String → Except IngestError (List FileRecord) × St
  | st, [] => (.ok [], st)
  | st, filePath :: rest =>
    match readFile env opts relativePathToElmJson st filePath with
    | (.error e, st1) => (.error e, st1)
    | (.ok record, st1) =>
      match processFiles env opts relativePathToElmJson st1 rest with
      | (.error e, st2) => (.error e, st2)
      | (.ok records, st2) => (.ok (record :: records), st2)

/-- The result record of getProjectFiles. -/
structure ProjectFiles where
  elmJsonRaw : String
  elmJsonProject : ElmJson
  readme : Option Readme
  elmFiles : List FileRecord
  sourcesDirectories : List String
  deriving DecidableEq, Repr

/-- Embeds getProjectFiles from src/lib/options.js: read and decode the
manifest, scan the source directories, fail on empty explicitly requested
directories, prepare the workers, read every deduplicated file, terminate
the workers and assemble the result.  Note the source has no try/finally:
terminateWorkers only runs on the success path. -/
def getProjectFiles (env : Env) (opts : Opts) (st : St) :
    Except IngestError ProjectFiles × St :=
  let relativePathToElmJson := pathDirname opts.elmJsonPath
  match readElmJson opts st with
  | .error e => (.error e, st)
  | .ok elmJsonRaw =>
    let readme := getReadme opts st relativePathToElmJson
    match env.jsonParse elmJsonRaw with
    | none => (.error (.jsonSyntaxError elmJsonRaw), st)
    | some elmJson =>
      let sourcesDirectories := getSourceDirectories opts elmJson
      let filesInDirectories := scanResults opts st elmJson
      let emptyDirectories := filesInDirectories.filter (fun d => d.files.isEmpty)
      if !opts.directoriesToAnalyze.isEmpty && !emptyDirectories.isEmpty then
        (.error (.customError "NO FILES FOUND"
          (noFilesFoundMessage (emptyDirectories.map (fun d => d.directory)))), st)
      else
        match processFiles env opts relativePathToElmJson (prepareWorkers st)
            (elmFilesToRead opts st elmJson) with
        | (.error e, st2) => (.error e, st2)
        | (.ok elmFiles, st2) =>
          (.ok { elmJsonRaw := elmJsonRaw, elmJsonProject := elmJson,
                 readme := readme, elmFiles := elmFiles,
                 sourcesDirectories := sourcesDirectories }, terminateWorkers st2)

/-- Modelled from the spec: between watch-mode passes the session cache
stores, per path, the record the latest pass produced for that path (the
code that populates the in-memory cache lives in state.js, which is not
under src/): the entry for a path is invalidated and replaced by the fresher
record. -/
def upsertMemory (m : List (String × FileRecord)) (r : FileRecord) :
    List (String × FileRecord) :=
  (r.path, r) :: m.filter (fun e => !(e.fst == r.path))

/-- Modelled from the spec: fold the records of a finished pass into the
session cache (state.js is not under src/). -/
def updateMemoryCache (m : List (String × FileRecord)) (records : List FileRecord) :
    List (String × FileRecord) :=
  records.foldl upsertMemory m

/-- Well-formedness of the session cache: every entry is stored under the
path of its own record. -/
def wfMemoryCache (m : List (String × FileRecord)) : Bool :=
  m.all (fun e => e.snd.path == e.fst)

/-- True on a parse-dispatch event. -/
def isParseDispatchEv : Ev → Bool
  | .parseDispatch _ => true
  | _ => false

/-- What a successful watch-mode readFile guarantees about its record: it is
keyed by the relative path, and its stored lastUpdatedTime is at least the
mtime the pass observed (equal on a fresh read, at least it on a cache hit),
so a later pass that observes the same mtime takes the in-memory shortcut. -/
def hitReady (fs : FileSystem) (rb : String) (p : String) (r : FileRecord) : Prop :=
  r.path = pathRelative rb p ∧
  ∃ t, fsReadLatestUpdatedTime fs p = some t ∧ t ≤ r.lastUpdatedTime.getD 0

/-- True on a stat event. -/
def isStatMtimeEv : Ev → Bool
  | .statMtime _ => true
  | _ => false

/-- True on the per-file batch events (everything readFile can emit): a
stat, a content read, a parse dispatch or a durable-cache write. -/
def isBatchEv : Ev → Bool
  | .statMtime _ => true
  | .readContent _ => true
  | .parseDispatch _ => true
  | .cacheWrite _ => true
  | .prepare => false
  | .terminate => false

/-- One readFile task of a concurrent non-watch batch, at the granularity
of its await points (options.js: await fsReadFile, await
cache.readAstFromFSCache, await elmParser.parse) plus the un-awaited
cache.cacheFile write, which lands as a separate step at an arbitrary later
point of the schedule. -/
inductive TaskSt where
  | toRead (filePath : String)
  | toLookup (filePath source : String)
  | toParse (filePath source : String)
  | toWrite (filePath source : String) (ast : Ast)
  | failed (filePath : String) (e : IngestError)
  | done (filePath : String) (record : FileRecord)
  deriving DecidableEq, Repr

/-- Advance one task by one atomic step against the shared durable cache and
trace: read the content, look the durable cache up, dispatch the parse, or
let the pending cache write land. -/
def stepTask (env : Env) (fs : FileSystem) (rb : String)
    (fc : List (Nat × Ast)) (evs : List Ev) :
    TaskSt → TaskSt × List (Nat × Ast) × List Ev
  | .toRead p =>
    match fsReadFile fs p with
    | .error msg =>
        (.failed p (.customError "UNEXPECTED ERROR WHEN READING THE FILE"
          (readErrorMessage (pathRelative rb p) msg)), fc, evs ++ [Ev.readContent p])
    | .ok source => (.toLookup p source, fc, evs ++ [Ev.readContent p])
  | .toLookup p source =>
    match cacheLookup fc (contentHash source) with
    | some ast =>
        (.done p { path := pathRelative rb p, source := source,
                   lastUpdatedTime := none, ast := some ast }, fc, evs)
    | none => (.toParse p source, fc, evs)
  | .toParse p source =>
    match env.parse source with
    | some ast => (.toWrite p source ast, fc, evs ++ [Ev.parseDispatch source])
    | none =>
        (.done p { path := pathRelative rb p, source := source,
                   lastUpdatedTime := none, ast := none }, fc, evs ++ [Ev.parseDispatch source])
  | .toWrite p source ast =>
    (.done p { path := pathRelative rb p, source := source,
               lastUpdatedTime := none, ast := some ast },
     (contentHash source, ast) :: fc, evs ++ [Ev.cacheWrite (contentHash source)])
  | .failed p e => (.failed p e, fc, evs)
  | .done p r => (.done p r, fc, evs)

/-- The shared state of a concurrent batch: the per-file tasks, the durable
cache and the trace (the filesystem is read-only during a pass). -/
structure BatchSt where
  tasks : List TaskSt
  fileCache : List (Nat × Ast)
  events : List Ev
  deriving DecidableEq, Repr

/-- A scheduler step: advance the i-th task (out-of-range indices are
no-ops). -/
def stepBatch (env : Env) (fs : FileSystem) (rb : String) (b : BatchSt) (i : Nat) : BatchSt :=
  match b.tasks.get? i with
  | none => b
  | some t =>
    match stepTask env fs rb b.fileCache b.events t with
    | (t2, fc2, evs2) => { tasks := b.tasks.set i t2, fileCache := fc2, events := evs2 }

/-- The concurrent model of Promise.all(elmFilesToRead.map(readFile)) in
non-watch mode: all tasks start together and an arbitrary schedule
interleaves their steps; the source awaits neither any ordering between the
tasks nor the cacheFile writes, so every schedule is a possible execution. -/
def runBatch (env : Env) (fs : FileSystem) (rb : String) : BatchSt → List Nat → BatchSt
  | b, [] => b
  | b, i :: rest => runBatch env fs rb (stepBatch env fs rb b i) rest

/-- The batch at the start of a pass: one toRead task per file over the
given durable cache, with a fresh trace. -/
def initBatch (paths : List String) (fc : List (Nat × Ast)) : BatchSt :=
  { tasks := paths.map TaskSt.toRead, fileCache := fc, events := [] }

/-- Every task has settled (Promise.all has a final outcome; pending cache
writes have landed). -/
def batchDone (b : BatchSt) : Bool :=
  b.tasks.all (fun t =>
    match t with
    | .done _ _ => true
    | .failed _ _ => true
    | _ => false)

/-- Invariant of a cold pass over files that all hold the content s: every
task is working on s (or settled). -/
def coldOk (fs : FileSystem) (s : String) : TaskSt → Prop
  | .toRead p => fsReadFile fs p = .ok s
  | .toLookup _ source => source = s
  | .toParse _ source => source = s
  | .toWrite _ source _ => source = s
  | .failed _ _ => True
  | .done _ _ => True

/-- Invariant of a pass whose files all hit the durable cache: no task ever
reaches the parse phase. -/
def hotOk (fs : FileSystem) (s : String) : TaskSt → Prop
  | .toRead p => fsReadFile fs p = .ok s
  | .toLookup _ source => source = s
  | .done _ _ => True
  | _ => False

namespace Sample

/-- A concrete parser oracle: the source "bad" fails to parse, anything else
parses to its length. -/
def env : Env :=
  { parse := fun s => if s = "bad" then none else some s.length,
    jsonParse := fun s =>
      if s = "APP" then some { type := "application", sourceDirectories := ["src"] }
      else if s = "PKG" then some { type := "package", sourceDirectories := [] }
      else none }

/-- Watch-mode options for the sample project. -/
def opts : Opts :=
  { watch := true, elmJsonPath := "proj/elm.json", elmJsonPathWasSpecified := false,
    readmePath := "proj/README.md", directoriesToAnalyze := [],
    projectToReview := "proj", cwd := "proj" }

/-- The same options without watch mode. -/
def optsNoWatch : Opts := { opts with watch := false }

/-- The same options with explicitly requested directories, one empty. -/
def optsDirs : Opts := { optsNoWatch with directoriesToAnalyze := ["src", "empty"] }

/-- A healthy sample project: two byte-identical files, one excluded
directory, one elm-stuff-backup directory, one file that fails to parse. -/
def fsGood : FileSystem :=
  [ ("proj/elm.json", .file "APP" 5),
    ("proj/README.md", .file "readme" 5),
    ("proj/src/A.elm", .file "module A" 10),
    ("proj/src/B.elm", .file "module A" 11),
    ("proj/src/elm-stuff/X.elm", .file "junk" 3),
    ("proj/src/elm-stuff-backup/C.elm", .file "module C" 4),
    ("proj/src/node_modules/D.elm", .file "dep" 2),
    ("proj/src/Bad.elm", .file "bad" 9) ]

/-- The same project with one unreadable file. -/
def fsLeak : FileSystem :=
  [ ("proj/elm.json", .file "APP" 5),
    ("proj/src/A.elm", .file "module A" 10),
    ("proj/src/E.elm", .unreadable "EACCES: permission denied" 7) ]

/-- A project whose manifest is present but malformed. -/
def fsBadManifest : FileSystem :=
  [ ("proj/elm.json", .file "OOPS" 5),
    ("proj/src/A.elm", .file "module A" 10) ]

/-- Fresh state over a filesystem. -/
def stOf (fs : FileSystem) : St :=
  { fs := fs, memoryCache := [], fileCache := [], workersPrepared := false, events := [] }

/-- The first watch-mode pass over the healthy project. -/
def pass1 : Except IngestError ProjectFiles × St := getProjectFiles env opts (stOf fsGood)

/-- Its result record. -/
def res1 : ProjectFiles :=
  pass1.1.toOption.getD { elmJsonRaw := "", elmJsonProject := { type := "", sourceDirectories := [] },
                          readme := none, elmFiles := [], sourcesDirectories := [] }

/-- The state a second watch pass starts from: same disk, session cache
holding the records of the first pass, fresh trace. -/
def stPass2 : St :=
  { stOf fsGood with
    memoryCache := updateMemoryCache (stOf fsGood).memoryCache res1.elmFiles,
    events := [] }

/-- The first non-watch pass over the healthy project. -/
def passNW : Except IngestError ProjectFiles × St := getProjectFiles env optsNoWatch (stOf fsGood)

/-- Its result record. -/
def resNW : ProjectFiles :=
  passNW.1.toOption.getD { elmJsonRaw := "", elmJsonProject := { type := "", sourceDirectories := [] },
                           readme := none, elmFiles := [], sourcesDirectories := [] }

/-- A non-watch pass over the project with an unreadable file. -/
def passLeak : Except IngestError ProjectFiles × St := getProjectFiles env optsNoWatch (stOf fsLeak)

/-- The error that pass surfaces. -/
def errLeak : IngestError :=
  match passLeak.1 with
  | .error e => e
  | .ok _ => .rawError ""

/-- A fresher-than-disk session-cache entry for A.elm (stored 12, disk 10),
whose ast deliberately differs from what a fresh parse would give, to show
the stored record is returned unchanged. -/
def cacheRecFresh : FileRecord :=
  { path := "src/A.elm", source := "module A", lastUpdatedTime := some 12, ast := some 9 }

/-- Watch-mode state whose session cache holds only that fresher entry. -/
def stMemFresh : St :=
  { stOf fsGood with memoryCache := [("src/A.elm", cacheRecFresh)] }

/-- A session-cache entry for A.elm that is stale by mtime (stored 5, disk
10) but byte-identical to the disk content. -/
def cacheRecA : FileRecord :=
  { path := "src/A.elm", source := "module A", lastUpdatedTime := some 5, ast := some 77 }

/-- Watch-mode state whose session cache holds only the stale-but-identical
entry for A.elm. -/
def stMem : St :=
  { stOf fsGood with memoryCache := [("src/A.elm", cacheRecA)] }

end Sample

end ElmReview

namespace ElmReview

/-- readAst only touches the durable cache and the trace, and every event it
appends satisfies any predicate that accepts parse dispatches and cache
writes. -/
theorem readAst_shape (P : Ev → Bool)
    (hP1 : ∀ s, P (Ev.parseDispatch s) = true)
    (hP2 : ∀ k, P (Ev.cacheWrite k) = true)
    (env : Env) (st : St) (source : String) :
    ∃ fc ev, (readAst env st source).2 =
      { st with fileCache := fc, events := st.events ++ ev } ∧ ev.all P = true := by
  cases h : readAstFromFSCache st source with
  | some a =>
    refine ⟨st.fileCache, [], ?_, rfl⟩
    simp [readAst, h]
  | none =>
    cases hp : env.parse source with
    | some a =>
      refine ⟨(contentHash source, a) :: st.fileCache,
        [Ev.parseDispatch source, Ev.cacheWrite (contentHash source)], ?_, ?_⟩
      · simp [readAst, h, hp, cacheFile]
      · simp [hP1, hP2]
    | none =>
      refine ⟨st.fileCache, [Ev.parseDispatch source], ?_, ?_⟩
      · simp [readAst, h, hp]
      · simp [hP1]

/-- readSourceNow only touches the durable cache and the trace; its events
are content reads, parse dispatches and cache writes. -/
theorem readSourceNow_shape (P : Ev → Bool)
    (hP1 : ∀ s, P (Ev.parseDispatch s) = true)
    (hP2 : ∀ k, P (Ev.cacheWrite k) = true)
    (hP3 : ∀ q, P (Ev.readContent q) = true)
    (env : Env) (st : St) (rel fp : String)
    (lut : Option Nat) (cf : Option FileRecord) :
    ∃ fc ev, (readSourceNow env st rel fp lut cf).2 =
      { st with fileCache := fc, events := st.events ++ ev } ∧ ev.all P = true := by
  cases hr : fsReadFile st.fs fp with
  | error m =>
    refine ⟨st.fileCache, [Ev.readContent fp], ?_, ?_⟩
    · simp [readSourceNow, hr]
    · simp [hP3]
  | ok source =>
    have hca : ∀ cachedAst : Option Ast,
        (match cachedAst with
          | some ast =>
              ((.ok { path := rel, source := source,
                      lastUpdatedTime := lut, ast := some ast } :
                  Except IngestError FileRecord),
               { st with events := st.events ++ [Ev.readContent fp] })
          | none =>
              match readAst env { st with events := st.events ++ [Ev.readContent fp] } source with
              | (ast, st2) =>
                  (.ok { path := rel, source := source,
                         lastUpdatedTime := lut, ast := ast }, st2)).2 =
          (readSourceNow env st rel fp lut cf).2 →
        ∃ fc ev, (readSourceNow env st rel fp lut cf).2 =
          { st with fileCache := fc, events := st.events ++ ev } ∧ ev.all P = true := by
      intro cachedAst hsame
      cases cachedAst with
      | some ast =>
        refine ⟨st.fileCache, [Ev.readContent fp], ?_, ?_⟩
        · rw [← hsame]
        · simp [hP3]
      | none =>
        obtain ⟨fc, ev, hshape, hall⟩ :=
          readAst_shape P hP1 hP2 env
            { st with events := st.events ++ [Ev.readContent fp] } source
        refine ⟨fc, Ev.readContent fp :: ev, ?_, ?_⟩
        · rw [← hsame]
          rcases hra : readAst env { st with events := st.events ++ [Ev.readContent fp] } source
            with ⟨ast, st2⟩
          rw [hra] at hshape
          simp at hshape
          simp [hshape]
        · simp [hP3, hall]
    cases cf with
    | none =>
      exact hca none (by simp [readSourceNow, hr])
    | some c =>
      by_cases hsrc : (c.source == source) = true
      · cases hcast : c.ast with
        | some a =>
          exact hca (some a) (by simp [readSourceNow, hr, hsrc, hcast])
        | none =>
          exact hca none (by simp [readSourceNow, hr, hsrc, hcast])
      · exact hca none (by simp [readSourceNow, hr, hsrc])

/-- readFile preserves the filesystem, the session cache and the worker
flag; its events are stats, content reads, parse dispatches and cache
writes, and stats only occur in watch mode. -/
theorem readFile_shape (env : Env) (opts : Opts) (rb : String) (st : St) (fp : String)
    (P : Ev → Bool)
    (hP1 : ∀ s, P (Ev.parseDispatch s) = true)
    (hP2 : ∀ k, P (Ev.cacheWrite k) = true)
    (hP3 : ∀ q, P (Ev.readContent q) = true)
    (hP4 : opts.watch = true → ∀ q, P (Ev.statMtime q) = true) :
    ∃ fc ev, (readFile env opts rb st fp).2 =
      { st with fileCache := fc, events := st.events ++ ev } ∧ ev.all P = true := by
  cases hw : opts.watch with
  | false =>
    obtain ⟨fc, ev, hshape, hall⟩ :=
      readSourceNow_shape P hP1 hP2 hP3 env st (pathRelative rb fp) fp none none
    exact ⟨fc, ev, by simpa [readFile, hw] using hshape, hall⟩
  | true =>
    have hstat := hP4 hw
    cases hs : fsReadLatestUpdatedTime st.fs fp with
    | none =>
      refine ⟨st.fileCache, [Ev.statMtime fp], ?_, ?_⟩
      · simp [readFile, hw, hs]
      · simp [hstat]
    | some t =>
      have hmiss : ∀ cf : Option FileRecord,
          (readFile env opts rb st fp).2 =
            (readSourceNow env { st with events := st.events ++ [Ev.statMtime fp] }
              (pathRelative rb fp) fp (some t) cf).2 →
          ∃ fc ev, (readFile env opts rb st fp).2 =
            { st with fileCache := fc, events := st.events ++ ev } ∧ ev.all P = true := by
        intro cf hsame
        obtain ⟨fc, ev, hshape, hall⟩ :=
          readSourceNow_shape P hP1 hP2 hP3 env
            { st with events := st.events ++ [Ev.statMtime fp] }
            (pathRelative rb fp) fp (some t) cf
        refine ⟨fc, Ev.statMtime fp :: ev, ?_, ?_⟩
        · rw [hsame, hshape]
          simp
        · simp [hstat, hall]
      cases hm : memLookup st.memoryCache (pathRelative rb fp) with
      | some c =>
        by_cases hge : jsGE c.lastUpdatedTime (some t) = true
        · refine ⟨st.fileCache, [Ev.statMtime fp], ?_, ?_⟩
          · simp [readFile, hw, hs, hm, hge]
          · simp [hstat]
        · exact hmiss (some c) (by simp [readFile, hw, hs, hm, hge])
      | none =>
        exact hmiss none (by simp [readFile, hw, hs, hm])

/-- processFiles preserves the filesystem, the session cache and the worker
flag; all its events are per-file batch events. -/
theorem processFiles_shape (env : Env) (opts : Opts) (rb : String)
    (P : Ev → Bool)
    (hP1 : ∀ s, P (Ev.parseDispatch s) = true)
    (hP2 : ∀ k, P (Ev.cacheWrite k) = true)
    (hP3 : ∀ q, P (Ev.readContent q) = true)
    (hP4 : opts.watch = true → ∀ q, P (Ev.statMtime q) = true) :
    ∀ (paths : List String) (st : St),
    ∃ fc ev, (processFiles env opts rb st paths).2 =
      { st with fileCache := fc, events := st.events ++ ev } ∧ ev.all P = true := by
  intro paths
  induction paths with
  | nil => exact fun st => ⟨st.fileCache, [], by simp [processFiles], rfl⟩
  | cons p rest ih =>
    intro st
    obtain ⟨fc1, ev1, hshape1, hall1⟩ := readFile_shape env opts rb st p P hP1 hP2 hP3 hP4
    rcases hr : readFile env opts rb st p with ⟨res1, st1⟩
    have hst1 : st1 = { st with fileCache := fc1, events := st.events ++ ev1 } := by
      rw [hr] at hshape1; exact hshape1
    cases res1 with
    | error e =>
      refine ⟨fc1, ev1, ?_, hall1⟩
      simp [processFiles, hr, hst1]
    | ok record =>
      obtain ⟨fc2, ev2, hshape2, hall2⟩ := ih st1
      rcases hp2 : processFiles env opts rb st1 rest with ⟨res2, st2⟩
      have hst2 : st2 = { st1 with fileCache := fc2, events := st1.events ++ ev2 } := by
        rw [hp2] at hshape2; exact hshape2
      refine ⟨fc2, ev1 ++ ev2, ?_, ?_⟩
      · cases res2 with
        | error e =>
          simp only [processFiles, hr, hp2]
          rw [hst2, hst1]
          simp
        | ok records =>
          simp only [processFiles, hr, hp2]
          rw [hst2, hst1]
          simp
      · simp [List.all_append, hall1, hall2]

/-- A freshly written durable entry is found again under its own key. -/
theorem cacheLookup_cons_self (c : List (Nat × Ast)) (k : Nat) (v : Ast) :
    cacheLookup ((k, v) :: c) k = some v := by
  simp [cacheLookup]

/-- C3: for every parse request (a durable-cache miss on the content), the
durable cache is written if and only if the parse succeeded: a failed parse
leaves the durable cache untouched and dispatches only, a successful parse
appends exactly one entry keyed by the content hash. -/
theorem durable_write_iff_parse_success (env : Env) (st : St) (source : String)
    (hmiss : readAstFromFSCache st source = none) :
    (env.parse source = none →
      readAst env st source =
        (none, { st with events := st.events ++ [Ev.parseDispatch source] })) ∧
    (∀ ast, env.parse source = some ast →
      readAst env st source =
        (some ast, { st with
          fileCache := (contentHash source, ast) :: st.fileCache,
          events := st.events ++ [Ev.parseDispatch source,
            Ev.cacheWrite (contentHash source)] })) := by
  constructor
  · intro hp
    simp [readAst, hmiss, hp]
  · intro ast hp
    simp [readAst, hmiss, hp, cacheFile]

/-- Witness for C3 at a concrete state: a failing parse dispatches without a
cache write, a succeeding parse writes exactly one hash-keyed entry. -/
theorem durable_write_iff_parse_success_witness :
    readAstFromFSCache (Sample.stOf Sample.fsGood) "bad" = none ∧
    Sample.env.parse "bad" = none ∧
    readAst Sample.env (Sample.stOf Sample.fsGood) "bad" =
      (none, { Sample.stOf Sample.fsGood with
               events := (Sample.stOf Sample.fsGood).events ++ [Ev.parseDispatch "bad"] }) ∧
    readAst Sample.env (Sample.stOf Sample.fsGood) "module A" =
      (some 8, { Sample.stOf Sample.fsGood with
        fileCache := (contentHash "module A", 8) :: (Sample.stOf Sample.fsGood).fileCache,
        events := (Sample.stOf Sample.fsGood).events ++ [Ev.parseDispatch "module A",
          Ev.cacheWrite (contentHash "module A")] }) :=
  ⟨by decide, by decide,
   (durable_write_iff_parse_success Sample.env (Sample.stOf Sample.fsGood) "bad"
     (by decide)).1 (by decide),
   (durable_write_iff_parse_success Sample.env (Sample.stOf Sample.fsGood) "module A"
     (by decide)).2 8 (by decide)⟩

/-- C5: with explicitly requested directories, if any scan is empty the pass
fails with one NO FILES FOUND error whose message names exactly the empty
directories, and the state is returned unchanged: no file is read or parsed
and no partial result is produced. -/
theorem no_files_found_aggregation (env : Env) (opts : Opts) (st : St)
    (raw : String) (tmj : Nat) (ej : ElmJson)
    (hman : fsLookup st.fs opts.elmJsonPath = some (.file raw tmj))
    (hjson : env.jsonParse raw = some ej)
    (hdirs : opts.directoriesToAnalyze.isEmpty = false)
    (hempty : ((scanResults opts st ej).filter (fun d => d.files.isEmpty)).isEmpty = false) :
    getProjectFiles env opts st =
      (.error (.customError "NO FILES FOUND"
        (noFilesFoundMessage
          (((scanResults opts st ej).filter (fun d => d.files.isEmpty)).map
            (fun d => d.directory)))), st) := by
  simp [getProjectFiles, readElmJson, hman, hjson, hdirs, hempty]

/-- Witness for C5: requesting "src" and "empty" over the leak-free sample
filesystem fails naming only proj/empty, with the state unchanged. -/
theorem no_files_found_aggregation_witness :
    Sample.optsDirs.directoriesToAnalyze.isEmpty = false ∧
    getProjectFiles Sample.env Sample.optsDirs (Sample.stOf Sample.fsGood) =
      (.error (.customError "NO FILES FOUND"
        (noFilesFoundMessage
          (((scanResults Sample.optsDirs (Sample.stOf Sample.fsGood)
              { type := "application", sourceDirectories := ["src"] }).filter
             (fun d => d.files.isEmpty)).map (fun d => d.directory)))),
       Sample.stOf Sample.fsGood) :=
  ⟨by decide,
   no_files_found_aggregation Sample.env Sample.optsDirs (Sample.stOf Sample.fsGood)
     "APP" 5 { type := "application", sourceDirectories := ["src"] }
     (by decide) (by decide) (by decide) (by decide)⟩

/-- C8 counterexample: a present but malformed manifest does not produce a
structured manifest error: the raw SyntaxError of JSON.parse propagates
(compare isStructuredError, the shape of CustomError in
src/lib/error-message.js). -/
theorem manifest_unstructured_counterexample :
    getProjectFiles Sample.env Sample.optsNoWatch (Sample.stOf Sample.fsBadManifest) =
      (.error (.jsonSyntaxError "OOPS"), Sample.stOf Sample.fsBadManifest) ∧
    isStructuredError (.jsonSyntaxError "OOPS") = false := by
  exact ⟨rfl, rfl⟩

/-- C8 amended: an absent manifest fails with the structured ELM.JSON NOT
FOUND CustomError; a present but unparseable manifest fails with the raw
(unstructured) JSON syntax error; in both cases the state is unchanged, so
the pass aborts before any source file is read, parsed, or dispatched. -/
theorem manifest_error_aborts (env : Env) (opts : Opts) (st : St) :
    (fsLookup st.fs opts.elmJsonPath = none →
      getProjectFiles env opts st =
        (.error (.customError "ELM.JSON NOT FOUND" (elmJsonNotFoundMessage opts)), st) ∧
      isStructuredError (.customError "ELM.JSON NOT FOUND" (elmJsonNotFoundMessage opts)) = true) ∧
    (∀ raw tmj, fsLookup st.fs opts.elmJsonPath = some (.file raw tmj) →
      env.jsonParse raw = none →
      getProjectFiles env opts st = (.error (.jsonSyntaxError raw), st) ∧
      isStructuredError (.jsonSyntaxError raw) = false) := by
  constructor
  · intro habs
    refine ⟨?_, rfl⟩
    simp [getProjectFiles, readElmJson, habs]
  · intro raw tmj hman hjson
    refine ⟨?_, rfl⟩
    simp [getProjectFiles, readElmJson, hman, hjson]

/-- Batch events are never the worker-pool lifecycle events. -/
theorem not_terminate_of_all_batch {ev : List Ev} (h : ev.all isBatchEv = true) :
    Ev.terminate ∉ ev := by
  intro hmem
  have hb := List.all_eq_true.mp h _ hmem
  simp [isBatchEv] at hb

/-- C6 counterexample: on a pass that aborts because one file read fails,
the worker pool is prepared but never terminated (getProjectFiles has no
try/finally around the read loop), so "terminated on every exit path" is
false on the code. -/
theorem worker_pool_leak_counterexample :
    (getProjectFiles Sample.env Sample.optsNoWatch (Sample.stOf Sample.fsLeak)).1 =
      .error (.customError "UNEXPECTED ERROR WHEN READING THE FILE"
        (readErrorMessage "src/E.elm" "EACCES: permission denied")) ∧
    Ev.prepare ∈ (getProjectFiles Sample.env Sample.optsNoWatch (Sample.stOf Sample.fsLeak)).2.events ∧
    Ev.terminate ∉ (getProjectFiles Sample.env Sample.optsNoWatch (Sample.stOf Sample.fsLeak)).2.events ∧
    (getProjectFiles Sample.env Sample.optsNoWatch (Sample.stOf Sample.fsLeak)).2.workersPrepared = true := by
  refine ⟨rfl, ?_, ?_, rfl⟩ <;> decide

/-- C6 amended: the pool is prepared before the first parse dispatch of the
batch and terminated on the successful exit path, after every file has a
final result; but when the pass aborts early on a fatal read error the pool
is not terminated (the workers leak). -/
theorem worker_pool_lifecycle (env : Env) (opts : Opts) (st : St) :
    (∀ res st1, st.events = [] → getProjectFiles env opts st = (.ok res, st1) →
      st1.workersPrepared = false ∧
      ∃ mid, st1.events = Ev.prepare :: mid ++ [Ev.terminate] ∧ mid.all isBatchEv = true) ∧
    (∀ e st1, st.events = [] → getProjectFiles env opts st = (.error e, st1) →
      Ev.prepare ∈ st1.events →
      st1.workersPrepared = true ∧ Ev.terminate ∉ st1.events) := by
  constructor
  · intro res st1 hev hpass
    simp only [getProjectFiles] at hpass
    split at hpass
    · exact absurd hpass (by simp)
    · split at hpass
      · exact absurd hpass (by simp)
      · next ej hJP =>
        split at hpass
        · exact absurd hpass (by simp)
        · obtain ⟨fc, ev, hshape, hall⟩ :=
            processFiles_shape env opts (pathDirname opts.elmJsonPath) isBatchEv
              (by intro s; rfl) (by intro k; rfl) (by intro q; rfl)
              (by intro _ q; rfl) (elmFilesToRead opts st ej) (prepareWorkers st)
          split at hpass
          · exact absurd hpass (by simp)
          · next elmFiles st2 hPF =>
            rw [Prod.mk.injEq] at hpass
            obtain ⟨h1, h2⟩ := hpass
            rw [hPF] at hshape
            simp only [ ] at hshape
            constructor
            · rw [← h2]; rfl
            · refine ⟨ev, ?_, hall⟩
              rw [← h2]
              show st2.events ++ [Ev.terminate] = Ev.prepare :: ev ++ [Ev.terminate]
              rw [hshape]
              simp [prepareWorkers, hev]
  · intro e st1 hev hpass hprep
    simp only [getProjectFiles] at hpass
    split at hpass
    · rw [Prod.mk.injEq] at hpass
      obtain ⟨h1, h2⟩ := hpass
      rw [← h2, hev] at hprep
      cases hprep
    · split at hpass
      · rw [Prod.mk.injEq] at hpass
        obtain ⟨h1, h2⟩ := hpass
        rw [← h2, hev] at hprep
        cases hprep
      · next ej hJP =>
        split at hpass
        · rw [Prod.mk.injEq] at hpass
          obtain ⟨h1, h2⟩ := hpass
          rw [← h2, hev] at hprep
          cases hprep
        · obtain ⟨fc, ev, hshape, hall⟩ :=
            processFiles_shape env opts (pathDirname opts.elmJsonPath) isBatchEv
              (by intro s; rfl) (by intro k; rfl) (by intro q; rfl)
              (by intro _ q; rfl) (elmFilesToRead opts st ej) (prepareWorkers st)
          split at hpass
          · next e0 st2 hPF =>
            rw [Prod.mk.injEq] at hpass
            obtain ⟨h1, h2⟩ := hpass
            rw [hPF] at hshape
            simp only [ ] at hshape
            constructor
            · rw [← h2, hshape]; rfl
            · rw [← h2, hshape]
              show Ev.terminate ∉ (prepareWorkers st).events ++ ev
              rw [show (prepareWorkers st).events = st.events ++ [Ev.prepare] from rfl, hev]
              intro hmem
              simp only [List.nil_append, List.singleton_append, List.mem_cons] at hmem
              rcases hmem with h | h
              · simp at h
              · exact not_terminate_of_all_batch hall h
          · exact absurd hpass (by simp)

/-- Any readFile on a non-watch pass whose content read fails produces the
structured read error carrying the relative path and the cause. -/
theorem readFile_unreadable_nonwatch (env : Env) (opts : Opts) (rb : String)
    (st : St) (fp m : String) (tm : Nat)
    (hw : opts.watch = false) (hun : fsLookup st.fs fp = some (.unreadable m tm)) :
    readFile env opts rb st fp =
      (.error (.customError "UNEXPECTED ERROR WHEN READING THE FILE"
        (readErrorMessage (pathRelative rb fp) m)),
       { st with events := st.events ++ [Ev.readContent fp] }) := by
  simp [readFile, hw, readSourceNow, fsReadFile, hun]

/-- A non-watch batch containing an unreadable file always aborts with an
error: the file cannot be silently skipped. -/
theorem processFiles_unreadable_fails (env : Env) (opts : Opts) (rb : String)
    (fp m : String) (tm : Nat) (hw : opts.watch = false) :
    ∀ (paths : List String) (st : St),
      fsLookup st.fs fp = some (.unreadable m tm) → fp ∈ paths →
      ∃ e st1, processFiles env opts rb st paths = (.error e, st1) := by
  intro paths
  induction paths with
  | nil => intro st _ h; cases h
  | cons q rest ih =>
    intro st hun hmem
    rcases hr : readFile env opts rb st q with ⟨r1, st1⟩
    cases r1 with
    | error e => exact ⟨e, st1, by simp [processFiles, hr]⟩
    | ok record =>
      have hq : fp ≠ q := by
        intro hqe
        subst hqe
        rw [readFile_unreadable_nonwatch env opts rb st fp m tm hw hun] at hr
        simp at hr
      have hmem2 : fp ∈ rest := by
        cases hmem with
        | head => exact absurd rfl hq
        | tail _ h => exact h
      obtain ⟨fc, ev, hshape, _⟩ :=
        readFile_shape env opts rb st q isBatchEv
          (by intro s; rfl) (by intro k; rfl) (by intro q2; rfl) (by intro _ q2; rfl)
      have hfs : st1.fs = st.fs := by
        rw [hr] at hshape
        simp only [ ] at hshape
        rw [hshape]
      obtain ⟨e, st2, hPF⟩ := ih st1 (by rw [hfs]; exact hun) hmem2
      exact ⟨e, st2, by simp [processFiles, hr, hPF]⟩

/-- C7: a file whose content read fails surfaces as a fatal structured error
carrying the relative path and the underlying message (first conjunct); a
batch containing it returns no result (second conjunct); a whole ingestion
pass over a project containing it fails (third conjunct) — the file is never
silently skipped. -/
theorem file_read_error_fatal (env : Env) (opts : Opts) (rb : String) (st : St)
    (fp m : String) (tm : Nat)
    (hun : fsLookup st.fs fp = some (.unreadable m tm)) :
    ((opts.watch = false ∨
        ∀ c, memLookup st.memoryCache (pathRelative rb fp) = some c →
          jsGE c.lastUpdatedTime (some tm) = false) →
      (readFile env opts rb st fp).1 =
        .error (.customError "UNEXPECTED ERROR WHEN READING THE FILE"
          (readErrorMessage (pathRelative rb fp) m))) ∧
    (∀ paths, opts.watch = false → fp ∈ paths →
      ∃ e st1, processFiles env opts rb st paths = (.error e, st1)) ∧
    (∀ raw tmj ej, opts.watch = false →
      fsLookup st.fs opts.elmJsonPath = some (.file raw tmj) →
      env.jsonParse raw = some ej →
      (!opts.directoriesToAnalyze.isEmpty &&
        !((scanResults opts st ej).filter (fun d => d.files.isEmpty)).isEmpty) = false →
      fp ∈ elmFilesToRead opts st ej →
      ∃ e st1, getProjectFiles env opts st = (.error e, st1)) := by
  refine ⟨?_, ?_, ?_⟩
  · intro hcase
    cases hw : opts.watch with
    | false => simp [readFile, hw, readSourceNow, fsReadFile, hun]
    | true =>
      have hstat : fsReadLatestUpdatedTime st.fs fp = some tm := by
        simp [fsReadLatestUpdatedTime, hun, FsEntry.mtimeOf]
      cases hm : memLookup st.memoryCache (pathRelative rb fp) with
      | none => simp [readFile, hw, hstat, hm, readSourceNow, fsReadFile, hun]
      | some c =>
        have hge : jsGE c.lastUpdatedTime (some tm) = false := by
          cases hcase with
          | inl h => rw [hw] at h; cases h
          | inr h => exact h c hm
        simp [readFile, hw, hstat, hm, hge, readSourceNow, fsReadFile, hun]
  · intro paths hw hmem
    exact processFiles_unreadable_fails env opts rb fp m tm hw paths st hun hmem
  · intro raw tmj ej hw hman hjson hguard hmem
    obtain ⟨e, st1, hPF⟩ :=
      processFiles_unreadable_fails env opts (pathDirname opts.elmJsonPath) fp m tm hw
        (elmFilesToRead opts st ej) (prepareWorkers st) hun hmem
    refine ⟨e, st1, ?_⟩
    have hEJ : readElmJson opts st = .ok raw := by simp [readElmJson, hman]
    simp [getProjectFiles, hEJ, hjson, hguard, hPF]

/-- Witness for C7: the unreadable sample file fails its read, the batch
fails, and the whole pass fails. -/
theorem file_read_error_fatal_witness :
    fsLookup Sample.fsLeak "proj/src/E.elm" =
      some (.unreadable "EACCES: permission denied" 7) ∧
    (readFile Sample.env Sample.optsNoWatch "proj" (Sample.stOf Sample.fsLeak)
        "proj/src/E.elm").1 =
      .error (.customError "UNEXPECTED ERROR WHEN READING THE FILE"
        (readErrorMessage (pathRelative "proj" "proj/src/E.elm") "EACCES: permission denied")) ∧
    ∃ e st1, getProjectFiles Sample.env Sample.optsNoWatch (Sample.stOf Sample.fsLeak) =
      (.error e, st1) :=
  ⟨by decide,
   (file_read_error_fatal Sample.env Sample.optsNoWatch "proj" (Sample.stOf Sample.fsLeak)
     "proj/src/E.elm" "EACCES: permission denied" 7 (by decide)).1 (Or.inl rfl),
   (file_read_error_fatal Sample.env Sample.optsNoWatch (pathDirname Sample.optsNoWatch.elmJsonPath)
     (Sample.stOf Sample.fsLeak) "proj/src/E.elm" "EACCES: permission denied" 7
     (by decide)).2.2 "APP" 5 { type := "application", sourceDirectories := ["src"] }
     rfl (by decide) (by decide) (by decide) (by decide)⟩

/-- Witness for C8 (amended): both manifest failure modes at concrete
states. -/
theorem manifest_error_aborts_witness :
    fsLookup [(("proj/src/A.elm" : String), FsEntry.file "m" 1)] Sample.opts.elmJsonPath = none ∧
    getProjectFiles Sample.env Sample.opts
        (Sample.stOf [("proj/src/A.elm", .file "m" 1)]) =
      (.error (.customError "ELM.JSON NOT FOUND" (elmJsonNotFoundMessage Sample.opts)),
       Sample.stOf [("proj/src/A.elm", .file "m" 1)]) ∧
    getProjectFiles Sample.env Sample.optsNoWatch (Sample.stOf Sample.fsBadManifest) =
      (.error (.jsonSyntaxError "OOPS"), Sample.stOf Sample.fsBadManifest) :=
  ⟨by decide,
   ((manifest_error_aborts Sample.env Sample.opts
      (Sample.stOf [("proj/src/A.elm", .file "m" 1)])).1 (by decide)).1,
   ((manifest_error_aborts Sample.env Sample.optsNoWatch
      (Sample.stOf Sample.fsBadManifest)).2 "OOPS" 5 (by decide) (by decide)).1⟩

/-- C2: in watch mode, once the mtime shortcut does not fire (the cached
lastUpdatedTime is older than the observed mtime), the content is re-read
and content equality takes precedence: identical bytes reuse the stored
parsed representation with no parse dispatch (first conjunct), while
differing bytes (second conjunct) or a missing entry (third conjunct) go to
the parser when the durable cache also misses. -/
theorem mtime_then_content_precedence (env : Env) (opts : Opts) (rb : String)
    (st : St) (fp src : String) (tm : Nat)
    (hw : opts.watch = true)
    (hfs : fsLookup st.fs fp = some (.file src tm)) :
    (∀ c a, memLookup st.memoryCache (pathRelative rb fp) = some c →
      jsGE c.lastUpdatedTime (some tm) = false →
      c.source = src → c.ast = some a →
      readFile env opts rb st fp =
        (.ok { path := pathRelative rb fp, source := src,
               lastUpdatedTime := some tm, ast := some a },
         { st with events := st.events ++ [Ev.statMtime fp, Ev.readContent fp] })) ∧
    (∀ c, memLookup st.memoryCache (pathRelative rb fp) = some c →
      jsGE c.lastUpdatedTime (some tm) = false →
      c.source ≠ src →
      readAstFromFSCache st src = none →
      Ev.parseDispatch src ∈ (readFile env opts rb st fp).2.events) ∧
    (memLookup st.memoryCache (pathRelative rb fp) = none →
      readAstFromFSCache st src = none →
      Ev.parseDispatch src ∈ (readFile env opts rb st fp).2.events) := by
  have hstat : fsReadLatestUpdatedTime st.fs fp = some tm := by
    simp [fsReadLatestUpdatedTime, hfs, FsEntry.mtimeOf]
  refine ⟨?_, ?_, ?_⟩
  · intro c a hmem hge hsrc hcast
    simp [readFile, hw, hstat, hmem, hge, readSourceNow, fsReadFile, hfs, hsrc, hcast]
  · intro c hmem hge hsrc hdm
    have hm2 : cacheLookup st.fileCache (contentHash src) = none := by
      simpa [readAstFromFSCache] using hdm
    have hbeq : (c.source == src) = false := by
      simp [hsrc]
    cases hp : env.parse src with
    | some a =>
      simp [readFile, hw, hstat, hmem, hge, readSourceNow, fsReadFile, hfs, hbeq,
        readAst, readAstFromFSCache, hm2, hp, cacheFile]
    | none =>
      simp [readFile, hw, hstat, hmem, hge, readSourceNow, fsReadFile, hfs, hbeq,
        readAst, readAstFromFSCache, hm2, hp]
  · intro hmem hdm
    have hm2 : cacheLookup st.fileCache (contentHash src) = none := by
      simpa [readAstFromFSCache] using hdm
    cases hp : env.parse src with
    | some a =>
      simp [readFile, hw, hstat, hmem, readSourceNow, fsReadFile, hfs,
        readAst, readAstFromFSCache, hm2, hp, cacheFile]
    | none =>
      simp [readFile, hw, hstat, hmem, readSourceNow, fsReadFile, hfs,
        readAst, readAstFromFSCache, hm2, hp]


/-- Witness for C2: the stale-but-identical entry for A.elm is reused
without a dispatch; B.elm has no entry and is dispatched. -/
theorem mtime_then_content_precedence_witness :
    jsGE Sample.cacheRecA.lastUpdatedTime (some 10) = false ∧
    readFile Sample.env Sample.opts "proj" Sample.stMem "proj/src/A.elm" =
      (.ok { path := "src/A.elm", source := "module A",
             lastUpdatedTime := some 10, ast := some 77 },
       { Sample.stMem with events := Sample.stMem.events ++
           [Ev.statMtime "proj/src/A.elm", Ev.readContent "proj/src/A.elm"] }) ∧
    Ev.parseDispatch "module A" ∈
      (readFile Sample.env Sample.opts "proj" Sample.stMem "proj/src/B.elm").2.events := by
  refine ⟨by decide, ?_, ?_⟩
  · exact (mtime_then_content_precedence Sample.env Sample.opts "proj" Sample.stMem
      "proj/src/A.elm" "module A" 10 rfl (by decide)).1 Sample.cacheRecA 77
      (by decide) (by decide) rfl rfl
  · exact (mtime_then_content_precedence Sample.env Sample.opts "proj" Sample.stMem
      "proj/src/B.elm" "module A" 11 rfl (by decide)).2.2 (by decide) (by decide)

/-- The flatMap of src/lib/options.js (reduce + concat) is List.flatMap. -/
theorem flatMap_eq_list_flatMap (l : List α) (f : α → List β) :
    flatMap l f = l.flatMap f := by
  have haux : ∀ (l2 : List α) (acc : List β),
      l2.foldl (fun result item => result ++ f item) acc = acc ++ l2.flatMap f := by
    intro l2
    induction l2 with
    | nil => intro acc; simp
    | cons a l3 ih => intro acc; simp [ih]
  simpa [flatMap] using haux l []

/-- The path has no excluded segment exactly when no segment equals
elm-stuff or node_modules. -/
theorem hasIgnoredSeg_eq_false_iff (p : String) :
    hasIgnoredSeg p = false ↔
      ¬ ∃ s ∈ splitPath p, s = "elm-stuff" ∨ s = "node_modules" := by
  constructor
  · intro h hx
    obtain ⟨s, hs, hor⟩ := hx
    rw [hasIgnoredSeg, List.any_eq_false] at h
    have h2 := h s hs
    cases hor with
    | inl e => subst e; simp at h2
    | inr e => subst e; simp at h2
  · intro h
    rw [hasIgnoredSeg, List.any_eq_false]
    intro s hs
    have h1 : ¬(s = "elm-stuff" ∨ s = "node_modules") := fun hor => h ⟨s, hs, hor⟩
    simp only [not_or] at h1
    simp [h1.1, h1.2]

/-- Membership in a findFiles scan, in terms of the Bool matchers. -/
theorem mem_findFiles_iff (fs : FileSystem) (dir p : String) :
    p ∈ (findFiles fs dir).files ↔
      ((∃ en ∈ fs, en.fst = p) ∧
       (ciEq p dir = true ∨ globMatchElmUnder dir p = true) ∧
       hasIgnoredSeg p = false) := by
  simp only [findFiles, List.mem_append, List.mem_filter, List.mem_map,
    Bool.and_eq_true, Bool.not_eq_true']
  constructor
  · rintro (⟨hm, hc, hig⟩ | ⟨hm, hc, hig⟩)
    · exact ⟨hm, Or.inl hc, hig⟩
    · exact ⟨hm, Or.inr hc, hig⟩
  · rintro ⟨hm, hc | hc, hig⟩
    · exact Or.inl ⟨hm, hc, hig⟩
    · exact Or.inr ⟨hm, hc, hig⟩

/-- Membership in globSyncElm, in terms of the Bool matchers. -/
theorem mem_globSyncElm_iff (fs : FileSystem) (root p : String) :
    p ∈ globSyncElm fs root ↔
      ((∃ en ∈ fs, en.fst = p) ∧
       (splitPath root).isPrefixOf (splitPath p) = true ∧
       (splitPath root).length < (splitPath p).length ∧
       (∀ s ∈ (splitPath p).drop (splitPath root).length, isHiddenSeg s = false) ∧
       strEndsWith (lowerStr p) ".elm" = true ∧
       hasIgnoredSeg p = false) := by
  simp only [globSyncElm, List.mem_filter, List.mem_map, Bool.and_eq_true,
    Bool.not_eq_true', decide_eq_true_eq, List.all_eq_true]
  tauto

/-- Membership in resolveFilePath over a directory reduces to membership in
its glob expansion (the elm-stuff filters are subsumed by the glob ignore,
which already excludes every elm-stuff segment). -/
theorem mem_resolveFilePath_dir (fs : FileSystem) (dir p : String)
    (hfile : isFileOnDisk fs dir = false) (hdir : isDirOnDisk fs dir = true) :
    p ∈ resolveFilePath fs dir ↔
      (p ∈ globSyncElm fs dir ∧ ((splitPath p).contains "elm-stuff") = false) := by
  simp only [resolveFilePath, getFiles, hfile, hdir, Bool.false_eq_true, if_false,
    if_true, flatMap_eq_list_flatMap, List.mem_filter, List.mem_flatMap,
    List.mem_singleton, Bool.not_eq_true']
  constructor
  · rintro ⟨⟨x, hx, hpx, hqx⟩, hq⟩
    rw [← hpx] at hx
    exact ⟨hx, hq⟩
  · rintro ⟨hg, hq⟩
    exact ⟨⟨p, hg, rfl, hq⟩, hq⟩

/-- C9: during directory expansion a candidate file is excluded exactly when
one of its path segments equals an excluded directory name (elm-stuff or
node_modules, exact segment equality, not substring): the first conjunct
characterizes findFiles, the second resolveFilePath on a directory; the
remaining conjuncts instantiate the claim examples on the sample project: a
file under elm-stuff is excluded, one under node_modules is excluded, one
under elm-stuff-backup is not, and directory-name matching during expansion
is case-insensitive (the same files are found under the root spelled
proj/SRC). -/
theorem exclusion_by_segment (fs : FileSystem) (dir p : String) :
    (p ∈ (findFiles fs dir).files ↔
      ((∃ en ∈ fs, en.fst = p) ∧
       (ciEq p dir = true ∨ globMatchElmUnder dir p = true) ∧
       ¬ ∃ s ∈ splitPath p, s = "elm-stuff" ∨ s = "node_modules")) ∧
    (isFileOnDisk fs dir = false → isDirOnDisk fs dir = true →
      (p ∈ resolveFilePath fs dir ↔
        ((∃ en ∈ fs, en.fst = p) ∧
         (splitPath dir).isPrefixOf (splitPath p) = true ∧
         (splitPath dir).length < (splitPath p).length ∧
         (∀ s ∈ (splitPath p).drop (splitPath dir).length, isHiddenSeg s = false) ∧
         strEndsWith (lowerStr p) ".elm" = true ∧
         ¬ ∃ s ∈ splitPath p, s = "elm-stuff" ∨ s = "node_modules"))) ∧
    ("proj/src/elm-stuff/X.elm" ∉ (findFiles Sample.fsGood "proj/src").files) ∧
    ("proj/src/node_modules/D.elm" ∉ (findFiles Sample.fsGood "proj/src").files) ∧
    ("proj/src/elm-stuff-backup/C.elm" ∈ (findFiles Sample.fsGood "proj/src").files) ∧
    ("proj/src/A.elm" ∈ (findFiles Sample.fsGood "proj/SRC").files) := by
  refine ⟨?_, ?_, by decide, by decide, by decide, by decide⟩
  · rw [mem_findFiles_iff, hasIgnoredSeg_eq_false_iff]
  · intro hfile hdir
    rw [mem_resolveFilePath_dir fs dir p hfile hdir, mem_globSyncElm_iff]
    constructor
    · rintro ⟨⟨hmem, hpre, hlt, hhid, helm, hig⟩, _⟩
      exact ⟨hmem, hpre, hlt, hhid, helm, (hasIgnoredSeg_eq_false_iff p).mp hig⟩
    · rintro ⟨hmem, hpre, hlt, hhid, helm, hno⟩
      have hig := (hasIgnoredSeg_eq_false_iff p).mpr hno
      refine ⟨⟨hmem, hpre, hlt, hhid, helm, hig⟩, ?_⟩
      rcases hcc : (splitPath p).contains "elm-stuff" with _ | _
      · rfl
      · exact absurd ⟨"elm-stuff", List.elem_iff.mp hcc, Or.inl rfl⟩ hno

/-- Witness for C9: the characterizations applied to concrete paths of the
sample filesystem. -/
theorem exclusion_by_segment_witness :
    isFileOnDisk Sample.fsGood "proj/src" = false ∧
    ("proj/src/elm-stuff/X.elm" ∈ (findFiles Sample.fsGood "proj/src").files ↔
      ((∃ en ∈ Sample.fsGood, en.fst = "proj/src/elm-stuff/X.elm") ∧
       (ciEq "proj/src/elm-stuff/X.elm" "proj/src" = true ∨
         globMatchElmUnder "proj/src" "proj/src/elm-stuff/X.elm" = true) ∧
       ¬ ∃ s ∈ splitPath "proj/src/elm-stuff/X.elm", s = "elm-stuff" ∨ s = "node_modules")) ∧
    ("proj/src/elm-stuff-backup/C.elm" ∈ resolveFilePath Sample.fsGood "proj/src" ↔
      ((∃ en ∈ Sample.fsGood, en.fst = "proj/src/elm-stuff-backup/C.elm") ∧
       (splitPath "proj/src").isPrefixOf (splitPath "proj/src/elm-stuff-backup/C.elm") = true ∧
       (splitPath "proj/src").length < (splitPath "proj/src/elm-stuff-backup/C.elm").length ∧
       (∀ s ∈ (splitPath "proj/src/elm-stuff-backup/C.elm").drop
           (splitPath "proj/src").length, isHiddenSeg s = false) ∧
       strEndsWith (lowerStr "proj/src/elm-stuff-backup/C.elm") ".elm" = true ∧
       ¬ ∃ s ∈ splitPath "proj/src/elm-stuff-backup/C.elm",
           s = "elm-stuff" ∨ s = "node_modules")) := by
  refine ⟨by decide, ?_, ?_⟩
  · exact (exclusion_by_segment Sample.fsGood "proj/src" "proj/src/elm-stuff/X.elm").1
  · exact (exclusion_by_segment Sample.fsGood "proj/src" "proj/src/elm-stuff-backup/C.elm").2.1
      (by decide) (by decide)

/-- readAst neither reads nor writes the session cache: running it over a
state with any session cache gives the same result with that cache
passed through. -/
theorem readAst_mem_set (env : Env) (st : St) (source : String)
    (m : List (String × FileRecord)) :
    readAst env { st with memoryCache := m } source =
      ((readAst env st source).1, { (readAst env st source).2 with memoryCache := m }) := by
  have hfc : readAstFromFSCache { st with memoryCache := m } source =
      readAstFromFSCache st source := rfl
  cases h : readAstFromFSCache st source with
  | some a => simp [readAst, hfc, h]
  | none =>
    cases hp : env.parse source with
    | some a => simp [readAst, hfc, h, hp, cacheFile]
    | none => simp [readAst, hfc, h, hp]

/-- readSourceNow neither reads nor writes the session cache. -/
theorem readSourceNow_mem_set (env : Env) (st : St) (rel fp : String)
    (lut : Option Nat) (cf : Option FileRecord) (m : List (String × FileRecord)) :
    readSourceNow env { st with memoryCache := m } rel fp lut cf =
      ((readSourceNow env st rel fp lut cf).1,
       { (readSourceNow env st rel fp lut cf).2 with memoryCache := m }) := by
  cases hr : fsReadFile st.fs fp with
  | error msg => simp [readSourceNow, hr]
  | ok source =>
    have hra := readAst_mem_set env { st with events := st.events ++ [Ev.readContent fp] }
      source m
    rcases hrr : readAst env { st with events := st.events ++ [Ev.readContent fp] } source
      with ⟨ast2, st2⟩
    rw [hrr] at hra
    cases cf with
    | none => simp [readSourceNow, hr, hra, hrr]
    | some c =>
      by_cases hsrc : (c.source == source) = true
      · cases hcast : c.ast with
        | some a => simp [readSourceNow, hr, hsrc, hcast]
        | none => simp [readSourceNow, hr, hsrc, hcast, hra, hrr]
      · simp [readSourceNow, hr, hsrc, hra, hrr]

/-- Outside watch mode readFile neither reads nor writes the session
cache. -/
theorem readFile_nonwatch_mem_set (env : Env) (opts : Opts) (rb : String)
    (st : St) (fp : String) (m : List (String × FileRecord))
    (hw : opts.watch = false) :
    readFile env opts rb { st with memoryCache := m } fp =
      ((readFile env opts rb st fp).1,
       { (readFile env opts rb st fp).2 with memoryCache := m }) := by
  simp only [readFile, hw, Bool.false_eq_true, if_false]
  exact readSourceNow_mem_set env st (pathRelative rb fp) fp none none m

/-- Outside watch mode a whole batch neither reads nor writes the session
cache. -/
theorem processFiles_nonwatch_mem_set (env : Env) (opts : Opts) (rb : String)
    (hw : opts.watch = false) :
    ∀ (paths : List String) (st : St) (m : List (String × FileRecord)),
    processFiles env opts rb { st with memoryCache := m } paths =
      ((processFiles env opts rb st paths).1,
       { (processFiles env opts rb st paths).2 with memoryCache := m }) := by
  intro paths
  induction paths with
  | nil => intro st m; simp [processFiles]
  | cons p rest ih =>
    intro st m
    rcases hr : readFile env opts rb st p with ⟨r1, st1⟩
    have hrf := readFile_nonwatch_mem_set env opts rb st p m hw
    rw [hr] at hrf
    cases r1 with
    | error e => simp [processFiles, hrf, hr]
    | ok record =>
      rcases hp : processFiles env opts rb st1 rest with ⟨r2, st2⟩
      have hih := ih st1 m
      rw [hp] at hih
      cases r2 with
      | error e => simp [processFiles, hrf, hr, hih, hp]
      | ok records => simp [processFiles, hrf, hr, hih, hp]

/-- A non-watch readFile success carries lastUpdatedTime = null. -/
theorem readFile_nonwatch_lut (env : Env) (opts : Opts) (rb : String)
    (st : St) (fp : String) (record : FileRecord) (st1 : St)
    (hw : opts.watch = false)
    (h : readFile env opts rb st fp = (.ok record, st1)) :
    record.lastUpdatedTime = none := by
  simp only [readFile, hw, Bool.false_eq_true, if_false] at h
  cases hr : fsReadFile st.fs fp with
  | error msg =>
    rw [readSourceNow] at h
    rw [hr] at h
    simp at h
  | ok source =>
    rw [readSourceNow] at h
    rw [hr] at h
    dsimp only [ ] at h
    rcases hrr : readAst env { st with events := st.events ++ [Ev.readContent fp] } source
      with ⟨ast2, st2⟩
    rw [hrr] at h
    simp at h
    obtain ⟨h1, h2⟩ := h
    rw [← h1]

/-- All successes of a non-watch batch carry lastUpdatedTime = null. -/
theorem processFiles_nonwatch_lut (env : Env) (opts : Opts) (rb : String)
    (hw : opts.watch = false) :
    ∀ (paths : List String) (st : St) (rs : List FileRecord) (st1 : St),
      processFiles env opts rb st paths = (.ok rs, st1) →
      ∀ r ∈ rs, r.lastUpdatedTime = none := by
  intro paths
  induction paths with
  | nil =>
    intro st rs st1 h r hr
    simp [processFiles] at h
    obtain ⟨h1, h2⟩ := h
    subst h1
    cases hr
  | cons p rest ih =>
    intro st rs st1 h r hr
    rcases hrf : readFile env opts rb st p with ⟨r1, st2⟩
    cases r1 with
    | error e => simp [processFiles, hrf] at h
    | ok record =>
      rcases hp : processFiles env opts rb st2 rest with ⟨r2, st3⟩
      cases r2 with
      | error e => simp [processFiles, hrf, hp] at h
      | ok records =>
        simp [processFiles, hrf, hp] at h
        obtain ⟨h1, h2⟩ := h
        subst h1
        cases hr with
        | head => exact readFile_nonwatch_lut env opts rb st p r st2 hw hrf
        | tail _ htl => exact ih st2 records st3 hp r htl

/-- A list whose elements all refute P has no P-element. -/
theorem any_eq_false_of_all_not {l : List Ev} {P : Ev → Bool}
    (h : l.all (fun e => !P e) = true) : l.any P = false := by
  rw [List.any_eq_false]
  intro e he
  have h2 := List.all_eq_true.mp h e he
  simpa using h2

/-- C10: when the watch flag is false the ingestion result is independent of
the in-memory session cache (same outcome and same state, the untouched
cache passed through, for any cache contents), every returned record
carries lastUpdatedTime = null, and no modification time is ever read (no
stat event in the trace of a pass started with a fresh trace). -/
theorem nonwatch_cache_noninterference (env : Env) (opts : Opts) (st : St)
    (hw : opts.watch = false) :
    (∀ m, getProjectFiles env opts { st with memoryCache := m } =
      ((getProjectFiles env opts st).1,
       { (getProjectFiles env opts st).2 with memoryCache := m })) ∧
    (∀ res st1, getProjectFiles env opts st = (.ok res, st1) →
      ∀ r ∈ res.elmFiles, r.lastUpdatedTime = none) ∧
    (st.events = [] →
      ((getProjectFiles env opts st).2.events.any isStatMtimeEv) = false) := by
  refine ⟨?_, ?_, ?_⟩
  · intro m
    have hEJ2 : readElmJson opts { st with memoryCache := m } = readElmJson opts st := rfl
    cases hEJ : readElmJson opts st with
    | error e => simp [getProjectFiles, hEJ2, hEJ]
    | ok raw =>
      cases hJP : env.jsonParse raw with
      | none => simp [getProjectFiles, hEJ2, hEJ, hJP]
      | some ej =>
        have hscan : scanResults opts { st with memoryCache := m } ej =
            scanResults opts st ej := rfl
        have hfiles : elmFilesToRead opts { st with memoryCache := m } ej =
            elmFilesToRead opts st ej := rfl
        have hprep : prepareWorkers { st with memoryCache := m } =
            { prepareWorkers st with memoryCache := m } := rfl
        have hread : getReadme opts { st with memoryCache := m } (pathDirname opts.elmJsonPath) =
            getReadme opts st (pathDirname opts.elmJsonPath) := rfl
        rcases hg : (!opts.directoriesToAnalyze.isEmpty &&
            !((scanResults opts st ej).filter (fun d => d.files.isEmpty)).isEmpty) with _ | _
        · have hPF := processFiles_nonwatch_mem_set env opts (pathDirname opts.elmJsonPath) hw
            (elmFilesToRead opts st ej) (prepareWorkers st) m
          rcases hp : processFiles env opts (pathDirname opts.elmJsonPath) (prepareWorkers st)
              (elmFilesToRead opts st ej) with ⟨r2, st2⟩
          rw [hp] at hPF
          cases r2 with
          | error e =>
            simp [getProjectFiles, hEJ2, hEJ, hJP, hscan, hfiles, hprep, hread, hg,
              hp, hPF]
          | ok elmFiles =>
            simp [getProjectFiles, hEJ2, hEJ, hJP, hscan, hfiles, hprep, hread, hg,
              hp, hPF, terminateWorkers]
        · simp only [scanResults, Bool.and_eq_true, Bool.not_eq_true'] at hg
          simp [getProjectFiles, hEJ2, hEJ, hJP, hscan, hread, scanResults,
            hg.1, hg.2]
  · intro res st1 hpass
    simp only [getProjectFiles] at hpass
    split at hpass
    · exact absurd hpass (by simp)
    · split at hpass
      · exact absurd hpass (by simp)
      · next ej hJP =>
        split at hpass
        · exact absurd hpass (by simp)
        · split at hpass
          · exact absurd hpass (by simp)
          · next elmFiles st2 hPF =>
            rw [Prod.mk.injEq] at hpass
            obtain ⟨h1, h2⟩ := hpass
            have h3 : res.elmFiles = elmFiles := by
              injection h1 with h5
              rw [← h5]
            intro r hr
            rw [h3] at hr
            exact processFiles_nonwatch_lut env opts (pathDirname opts.elmJsonPath) hw
              (elmFilesToRead opts st ej) (prepareWorkers st) elmFiles st2 hPF r hr
  · intro hev
    cases hEJ : readElmJson opts st with
    | error e => simp [getProjectFiles, hEJ, hev]
    | ok raw =>
      cases hJP : env.jsonParse raw with
      | none => simp [getProjectFiles, hEJ, hJP, hev]
      | some ej =>
        rcases hg : (!opts.directoriesToAnalyze.isEmpty &&
            !((scanResults opts st ej).filter (fun d => d.files.isEmpty)).isEmpty) with _ | _
        · obtain ⟨fc, ev, hshape, hall⟩ :=
            processFiles_shape env opts (pathDirname opts.elmJsonPath)
              (fun e => !isStatMtimeEv e) (by intro s; rfl) (by intro k; rfl)
              (by intro q; rfl) (by intro hwt; rw [hw] at hwt; cases hwt)
              (elmFilesToRead opts st ej) (prepareWorkers st)
          rcases hp : processFiles env opts (pathDirname opts.elmJsonPath) (prepareWorkers st)
              (elmFilesToRead opts st ej) with ⟨r2, st2⟩
          rw [hp] at hshape
          simp only [ ] at hshape
          have hany : ev.any isStatMtimeEv = false := any_eq_false_of_all_not hall
          simp only [prepareWorkers, hev, List.nil_append] at hp hshape
          cases r2 with
          | error e =>
            simp [getProjectFiles, hEJ, hJP, hg, hp, hshape, prepareWorkers, hev,
              List.any_append, hany, isStatMtimeEv]
          | ok elmFiles =>
            simp [getProjectFiles, hEJ, hJP, hg, hp, hshape, prepareWorkers,
              terminateWorkers, hev, List.any_append, hany, isStatMtimeEv]
        · simp only [scanResults, Bool.and_eq_true, Bool.not_eq_true'] at hg
          simp [getProjectFiles, hEJ, hJP, scanResults, hg.1, hg.2, hev]
/-- Witness for C10 at the healthy sample project without watch mode. -/
theorem nonwatch_cache_noninterference_witness :
    Sample.optsNoWatch.watch = false ∧
    getProjectFiles Sample.env Sample.optsNoWatch
        { Sample.stOf Sample.fsGood with memoryCache := [("src/A.elm", Sample.cacheRecA)] } =
      ((getProjectFiles Sample.env Sample.optsNoWatch (Sample.stOf Sample.fsGood)).1,
       { (getProjectFiles Sample.env Sample.optsNoWatch (Sample.stOf Sample.fsGood)).2 with
           memoryCache := [("src/A.elm", Sample.cacheRecA)] }) ∧
    ((getProjectFiles Sample.env Sample.optsNoWatch
        (Sample.stOf Sample.fsGood)).2.events.any isStatMtimeEv) = false := by
  refine ⟨rfl, ?_, ?_⟩
  · exact (nonwatch_cache_noninterference Sample.env Sample.optsNoWatch
      (Sample.stOf Sample.fsGood) rfl).1 [("src/A.elm", Sample.cacheRecA)]
  · exact (nonwatch_cache_noninterference Sample.env Sample.optsNoWatch
      (Sample.stOf Sample.fsGood) rfl).2.2 rfl

/-- Witness for C6 (amended): the healthy pass terminates the pool, the
pass with an unreadable file leaves it prepared. -/
theorem worker_pool_lifecycle_witness :
    ((Sample.passNW.2.workersPrepared = false) ∧
      ∃ mid, Sample.passNW.2.events = Ev.prepare :: mid ++ [Ev.terminate] ∧
        mid.all isBatchEv = true) ∧
    (Sample.passLeak.2.workersPrepared = true ∧
      Ev.terminate ∉ Sample.passLeak.2.events) :=
  ⟨(worker_pool_lifecycle Sample.env Sample.optsNoWatch (Sample.stOf Sample.fsGood)).1
      Sample.resNW Sample.passNW.2 rfl rfl,
   (worker_pool_lifecycle Sample.env Sample.optsNoWatch (Sample.stOf Sample.fsLeak)).2
      Sample.errLeak Sample.passLeak.2 rfl rfl (by decide)⟩

/-- A well-formed session cache stores every record under its own path. -/
theorem memLookup_wf {m : List (String × FileRecord)} {k : String} {c : FileRecord}
    (hwf : wfMemoryCache m = true) (h : memLookup m k = some c) : c.path = k := by
  rw [memLookup] at h
  rcases hf : m.find? (fun e => e.fst == k) with _ | e
  · rw [hf] at h; cases h
  · rw [hf] at h
    simp only [Option.map_some'] at h
    have h1 := List.find?_some hf
    have h2 := List.mem_of_find?_eq_some hf
    have h3 := List.all_eq_true.mp (by rwa [wfMemoryCache] at hwf) e h2
    have h4 : e.snd.path = e.fst := by simpa using h3
    have h5 : e.fst = k := by simpa using h1
    have h6 : e.snd = c := by injection h
    rw [← h6, h4, h5]

/-- Upserting keeps the session cache well formed. -/
theorem wf_upsertMemory {m : List (String × FileRecord)} {r : FileRecord}
    (hwf : wfMemoryCache m = true) : wfMemoryCache (upsertMemory m r) = true := by
  simp only [wfMemoryCache, List.all_eq_true] at hwf ⊢
  intro e he
  simp only [upsertMemory, List.mem_cons, List.mem_filter] at he
  rcases he with he | ⟨he, _⟩
  · subst he; simp
  · exact hwf e he

/-- Folding a pass of records into the session cache keeps it well formed. -/
theorem wf_updateMemoryCache {m : List (String × FileRecord)} (rs : List FileRecord)
    (hwf : wfMemoryCache m = true) : wfMemoryCache (updateMemoryCache m rs) = true := by
  induction rs generalizing m with
  | nil => exact hwf
  | cons r rest ih => exact ih (wf_upsertMemory hwf)

/-- Filtering one key out does not change lookups of other keys. -/
theorem find?_filter_ne (m : List (String × FileRecord)) (k rp : String) (h : k ≠ rp) :
    (m.filter (fun e => !(e.fst == rp))).find? (fun e => e.fst == k) =
      m.find? (fun e => e.fst == k) := by
  induction m with
  | nil => rfl
  | cons e rest ih =>
    by_cases he : e.fst = rp
    · have h1 : (e.fst == rp) = true := by simpa using he
      have h2 : (e.fst == k) = false := by
        subst he
        simpa using fun hh => h hh.symm
      rw [show (e :: rest).filter (fun e => !(e.fst == rp)) =
            rest.filter (fun e => !(e.fst == rp)) from by simp [List.filter_cons, h1]]
      rw [ih]
      rw [List.find?_cons_of_neg _ (by simp [h2])]
    · have h1 : (e.fst == rp) = false := by simpa using he
      by_cases h2 : e.fst = k
      · have h3 : (e.fst == k) = true := by simpa using h2
        rw [show (e :: rest).filter (fun e => !(e.fst == rp)) =
              e :: rest.filter (fun e => !(e.fst == rp)) from by simp [List.filter_cons, h1]]
        rw [List.find?_cons_of_pos _ (by simp [h3]), List.find?_cons_of_pos _ (by simp [h3])]
      · have h3 : (e.fst == k) = false := by simpa using h2
        rw [show (e :: rest).filter (fun e => !(e.fst == rp)) =
              e :: rest.filter (fun e => !(e.fst == rp)) from by simp [List.filter_cons, h1]]
        rw [List.find?_cons_of_neg _ (by simp [h3]), List.find?_cons_of_neg _ (by simp [h3]), ih]

/-- Looking the upserted cache up: the upserted path finds the new record,
any other key sees the old cache. -/
theorem memLookup_upsert (m : List (String × FileRecord)) (r : FileRecord) (k : String) :
    memLookup (upsertMemory m r) k = if k = r.path then some r else memLookup m k := by
  by_cases h : k = r.path
  · subst h
    simp [memLookup, upsertMemory, List.find?]
  · have h2 : ((r.path : String) == k) = false := by simpa using fun hh => h hh.symm
    rw [if_neg h]
    rw [memLookup, upsertMemory]
    rw [List.find?_cons_of_neg _ (by simp [h2])]
    rw [find?_filter_ne m k r.path h]
    rfl

/-- Keys none of the folded records carry are untouched by the fold. -/
theorem memLookup_update_not_mem (m : List (String × FileRecord))
    (rs : List FileRecord) (k : String) (h : ∀ r ∈ rs, r.path ≠ k) :
    memLookup (updateMemoryCache m rs) k = memLookup m k := by
  induction rs generalizing m with
  | nil => rfl
  | cons r rest ih =>
    show memLookup (updateMemoryCache (upsertMemory m r) rest) k = _
    rw [ih (upsertMemory m r) (fun r2 h2 => h r2 (List.mem_cons_of_mem _ h2))]
    rw [memLookup_upsert]
    rw [if_neg (fun he => h r (List.mem_cons_self _ _) he.symm)]

/-- After folding records with pairwise distinct paths into the cache, each
record is found under its own path. -/
theorem memLookup_update_self (m : List (String × FileRecord)) (rs : List FileRecord)
    (hnd : (rs.map FileRecord.path).Nodup) :
    ∀ r ∈ rs, memLookup (updateMemoryCache m rs) r.path = some r := by
  induction rs generalizing m with
  | nil => intro r hr; cases hr
  | cons r0 rest ih =>
    intro r hr
    rw [List.map_cons, List.nodup_cons] at hnd
    cases hr with
    | head =>
      show memLookup (updateMemoryCache (upsertMemory m r0) rest) r0.path = some r0
      have hne : ∀ r2 ∈ rest, r2.path ≠ r0.path := by
        intro r2 h2 he
        exact hnd.1 (by rw [← he]; exact List.mem_map_of_mem _ h2)
      rw [memLookup_update_not_mem (upsertMemory m r0) rest r0.path hne]
      simp [memLookup_upsert]
    | tail _ htl =>
      exact ih (upsertMemory m r0) hnd.2 r htl

/-- Nothing already seen reappears in the deduplicated list. -/
theorem dedupKeepFirst_not_mem_seen [BEq α] [LawfulBEq α] :
    ∀ (l seen : List α) (a : α), a ∈ seen → a ∉ dedupKeepFirst l seen := by
  intro l
  induction l with
  | nil => intro seen a h hmem; cases hmem
  | cons b rest ih =>
    intro seen a h hmem
    rw [dedupKeepFirst] at hmem
    by_cases hb : seen.contains b = true
    · rw [if_pos hb] at hmem
      exact ih seen a h hmem
    · rw [if_neg hb] at hmem
      cases hmem with
      | head => exact hb (List.elem_iff.mpr h)
      | tail _ htl => exact ih (b :: seen) a (List.mem_cons_of_mem _ h) htl

/-- Set-based deduplication gives a duplicate-free list. -/
theorem dedupKeepFirst_nodup [BEq α] [LawfulBEq α] :
    ∀ (l seen : List α), (dedupKeepFirst l seen).Nodup := by
  intro l
  induction l with
  | nil => intro seen; exact List.nodup_nil
  | cons b rest ih =>
    intro seen
    rw [dedupKeepFirst]
    by_cases hb : seen.contains b = true
    · rw [if_pos hb]; exact ih seen
    · rw [if_neg hb]
      exact List.nodup_cons.mpr
        ⟨dedupKeepFirst_not_mem_seen rest (b :: seen) b (List.mem_cons_self _ _),
         ih (b :: seen)⟩

/-- Deduplication only drops elements. -/
theorem dedupKeepFirst_sub [BEq α] [LawfulBEq α] :
    ∀ (l seen : List α) (a : α), a ∈ dedupKeepFirst l seen → a ∈ l := by
  intro l
  induction l with
  | nil => intro seen a h; cases h
  | cons b rest ih =>
    intro seen a h
    rw [dedupKeepFirst] at h
    by_cases hb : seen.contains b = true
    · rw [if_pos hb] at h
      exact List.mem_cons_of_mem _ (ih seen a h)
    · rw [if_neg hb] at h
      cases h with
      | head => exact List.mem_cons_self _ _
      | tail _ htl => exact List.mem_cons_of_mem _ (ih (b :: seen) a htl)

/-- Every file selected for reading is a path of the filesystem. -/
theorem elmFilesToRead_sub_keys (opts : Opts) (st : St) (ej : ElmJson) (p : String)
    (h : p ∈ elmFilesToRead opts st ej) : p ∈ st.fs.map Prod.fst := by
  rw [elmFilesToRead] at h
  have h2 := dedupKeepFirst_sub _ _ _ h
  rw [flatMap_eq_list_flatMap, List.mem_flatMap] at h2
  obtain ⟨d, hd, hp⟩ := h2
  rw [scanResults, List.mem_map] at hd
  obtain ⟨dir, _, hdd⟩ := hd
  rw [← hdd] at hp
  simp only [findFiles, List.mem_append, List.mem_filter] at hp
  rcases hp with ⟨hm, _⟩ | ⟨hm, _⟩ <;> exact hm

/-- A Forall₂ yields, for each left element, a related right element. -/
theorem forall₂_mem_left {R : α → β → Prop} :
    ∀ {l1 : List α} {l2 : List β}, List.Forall₂ R l1 l2 → ∀ a ∈ l1, ∃ b ∈ l2, R a b := by
  intro l1 l2 h
  induction h with
  | nil => intro a ha; cases ha
  | cons hR _ ih =>
    intro a ha
    cases ha with
    | head => exact ⟨_, List.mem_cons_self _ _, hR⟩
    | tail _ htl =>
      obtain ⟨b, hb, hRb⟩ := ih a htl
      exact ⟨b, List.mem_cons_of_mem _ hb, hRb⟩

/-- Mapping through a Forall₂ whose relation equates the images. -/
theorem forall₂_map_eq {R : α → β → Prop} (f : α → γ) (g : β → γ)
    (hfg : ∀ a b, R a b → f a = g b) :
    ∀ {l1 : List α} {l2 : List β}, List.Forall₂ R l1 l2 → l1.map f = l2.map g := by
  intro l1 l2 h
  induction h with
  | nil => rfl
  | cons hR _ ih => simp [hfg _ _ hR, ih]

/-- A successful readSourceNow returns a record keyed by the relative path
and carrying the lastUpdatedTime it was given. -/
theorem readSourceNow_ok_fields (env : Env) (st : St) (rel fp : String)
    (lut : Option Nat) (cf : Option FileRecord) (record : FileRecord) (st1 : St)
    (h : readSourceNow env st rel fp lut cf = (.ok record, st1)) :
    record.path = rel ∧ record.lastUpdatedTime = lut := by
  rw [readSourceNow] at h
  cases hr : fsReadFile st.fs fp with
  | error msg =>
    rw [hr] at h
    dsimp only [ ] at h
    exact absurd h (by simp)
  | ok source =>
    rw [hr] at h
    dsimp only [ ] at h
    rcases hca : (match cf with
        | some c => if (c.source == source) = true then c.ast else none
        | none => (none : Option Ast)) with _ | ast
    · rw [hca] at h
      dsimp only [ ] at h
      rcases hra : readAst env { st with events := st.events ++ [Ev.readContent fp] } source
        with ⟨ast2, st2⟩
      rw [hra] at h
      dsimp only [ ] at h
      have h1 : ({ path := rel, source := source, lastUpdatedTime := lut, ast := ast2 }
          : FileRecord) = record := by
        injection h with ha hb
        injection ha
      rw [← h1]
      exact ⟨rfl, rfl⟩
    · rw [hca] at h
      dsimp only [ ] at h
      have h1 : ({ path := rel, source := source, lastUpdatedTime := lut, ast := some ast }
          : FileRecord) = record := by
        injection h with ha hb
        injection ha
      rw [← h1]
      exact ⟨rfl, rfl⟩

/-- A successful watch-mode readFile leaves a record ready for the mtime
shortcut of the next pass over an unchanged file. -/
theorem readFile_watch_ok_record (env : Env) (opts : Opts) (rb : String)
    (st : St) (fp : String) (record : FileRecord) (st1 : St)
    (hw : opts.watch = true) (hwf : wfMemoryCache st.memoryCache = true)
    (h : readFile env opts rb st fp = (.ok record, st1)) :
    hitReady st.fs rb fp record := by
  cases hs : fsReadLatestUpdatedTime st.fs fp with
  | none =>
    rw [readFile] at h
    simp only [hw, if_true, hs] at h
    exact absurd h (by simp)
  | some t =>
    cases hm : memLookup st.memoryCache (pathRelative rb fp) with
    | some c =>
      cases hge : jsGE c.lastUpdatedTime (some t) with
      | true =>
        rw [readFile] at h
        simp only [hw, if_true, hs, hm, hge] at h
        have hc : c = record := by
          rw [Prod.mk.injEq] at h
          injection h.1
        refine ⟨?_, t, hs, ?_⟩
        · rw [← hc]
          exact memLookup_wf hwf hm
        · rw [← hc]
          simpa [jsGE] using hge
      | false =>
        rw [readFile] at h
        simp only [hw, if_true, hs, hm, hge, Bool.false_eq_true, if_false] at h
        obtain ⟨hpath, hlut⟩ := readSourceNow_ok_fields env
          { st with events := st.events ++ [Ev.statMtime fp] }
          (pathRelative rb fp) fp (some t) (some c) record st1 h
        exact ⟨hpath, t, hs, by rw [hlut]; simp⟩
    | none =>
      rw [readFile] at h
      simp only [hw, if_true, hs, hm] at h
      obtain ⟨hpath, hlut⟩ := readSourceNow_ok_fields env
        { st with events := st.events ++ [Ev.statMtime fp] }
        (pathRelative rb fp) fp (some t) none record st1 h
      exact ⟨hpath, t, hs, by rw [hlut]; simp⟩

/-- Every record of a successful watch-mode batch is ready for the mtime
shortcut of the next pass. -/
theorem processFiles_watch_records (env : Env) (opts : Opts) (rb : String)
    (hw : opts.watch = true) :
    ∀ (paths : List String) (st : St) (rs : List FileRecord) (st1 : St),
      wfMemoryCache st.memoryCache = true →
      processFiles env opts rb st paths = (.ok rs, st1) →
      List.Forall₂ (hitReady st.fs rb) paths rs := by
  intro paths
  induction paths with
  | nil =>
    intro st rs st1 hwf h
    simp [processFiles] at h
    obtain ⟨h1, _⟩ := h
    subst h1
    exact List.Forall₂.nil
  | cons p rest ih =>
    intro st rs st1 hwf h
    rcases hrf : readFile env opts rb st p with ⟨r1, st2⟩
    cases r1 with
    | error e => simp [processFiles, hrf] at h
    | ok record =>
      rcases hp : processFiles env opts rb st2 rest with ⟨r2, st3⟩
      cases r2 with
      | error e => simp [processFiles, hrf, hp] at h
      | ok records =>
        simp [processFiles, hrf, hp] at h
        obtain ⟨h1, _⟩ := h
        subst h1
        have hhead : hitReady st.fs rb p record :=
          readFile_watch_ok_record env opts rb st p record st2 hw hwf hrf
        obtain ⟨fc, ev, hshape, _⟩ :=
          readFile_shape env opts rb st p isBatchEv
            (by intro s; rfl) (by intro k; rfl) (by intro q; rfl) (by intro _ q; rfl)
        rw [hrf] at hshape
        simp only [ ] at hshape
        have hwf2 : wfMemoryCache st2.memoryCache = true := by
          rw [hshape]
          exact hwf
        have htail := ih st2 records st3 hwf2 hp
        have htail2 : List.Forall₂ (hitReady st.fs rb) rest records := by
          rw [hshape] at htail
          exact htail
        exact List.Forall₂.cons hhead htail2

/-- A watch-mode batch over files that all hit the mtime shortcut returns
the cached records and adds only stat events: nothing is read or parsed. -/
theorem processFiles_all_hits (env : Env) (opts : Opts) (rb : String)
    (hw : opts.watch = true) :
    ∀ (paths : List String) (st : St),
      (∀ p ∈ paths, ∃ c t,
        memLookup st.memoryCache (pathRelative rb p) = some c ∧
        fsReadLatestUpdatedTime st.fs p = some t ∧
        jsGE c.lastUpdatedTime (some t) = true) →
      ∃ rs, processFiles env opts rb st paths =
        (.ok rs, { st with events := st.events ++ paths.map Ev.statMtime }) := by
  intro paths
  induction paths with
  | nil => intro st _; exact ⟨[], by simp [processFiles]⟩
  | cons p rest ih =>
    intro st hall
    obtain ⟨c, t, hm, hs, hge⟩ := hall p (List.mem_cons_self p rest)
    have hrf : readFile env opts rb st p =
        (.ok c, { st with events := st.events ++ [Ev.statMtime p] }) := by
      simp [readFile, hw, hs, hm, hge]
    obtain ⟨rs, hrest⟩ := ih { st with events := st.events ++ [Ev.statMtime p] }
      (fun q hq => hall q (List.mem_cons_of_mem _ hq))
    refine ⟨c :: rs, ?_⟩
    simp only [processFiles, hrf, hrest]
    simp


/-- C1: in watch mode a file whose in-memory entry has a stored
lastUpdatedTime at least the freshly observed mtime is returned as the
stored record unchanged, with only a stat performed (no content read, no
parse) — first conjunct; consequently, a second pass over an unchanged
project whose session cache holds the records of a successful first pass
dispatches nothing to the parser — second conjunct. -/
theorem watch_mtime_hit_idempotent :
    (∀ (env : Env) (opts : Opts) (rb : String) (st : St) (fp : String)
        (t : Nat) (c : FileRecord),
      opts.watch = true →
      fsReadLatestUpdatedTime st.fs fp = some t →
      memLookup st.memoryCache (pathRelative rb fp) = some c →
      jsGE c.lastUpdatedTime (some t) = true →
      readFile env opts rb st fp =
        (.ok c, { st with events := st.events ++ [Ev.statMtime fp] })) ∧
    (∀ (env : Env) (opts : Opts) (st : St) (res : ProjectFiles) (st1 : St),
      opts.watch = true →
      wfMemoryCache st.memoryCache = true →
      (∀ p1 ∈ st.fs.map Prod.fst, ∀ p2 ∈ st.fs.map Prod.fst,
        pathRelative (pathDirname opts.elmJsonPath) p1 =
          pathRelative (pathDirname opts.elmJsonPath) p2 → p1 = p2) →
      getProjectFiles env opts st = (.ok res, st1) →
      ((getProjectFiles env opts
          { st with memoryCache := updateMemoryCache st.memoryCache res.elmFiles,
                    events := [] }).2.events.any isParseDispatchEv) = false) := by
  constructor
  · intro env opts rb st fp t c hw hs hm hge
    simp [readFile, hw, hs, hm, hge]
  · intro env opts st res st1 hw hwf hinj hpass
    simp only [getProjectFiles] at hpass
    split at hpass
    · exact absurd hpass (by simp)
    · next raw hEJ =>
      split at hpass
      · exact absurd hpass (by simp)
      · next ej hJP =>
        split at hpass
        · exact absurd hpass (by simp)
        · next hguard =>
          split at hpass
          · exact absurd hpass (by simp)
          · next elmFiles st2 hPF =>
            rw [Prod.mk.injEq] at hpass
            obtain ⟨h1, _⟩ := hpass
            have hresf : res.elmFiles = elmFiles := by
              injection h1 with h5
              rw [← h5]
            have hF2 := processFiles_watch_records env opts (pathDirname opts.elmJsonPath) hw
              (elmFilesToRead opts st ej) (prepareWorkers st) elmFiles st2 hwf hPF
            have hnodupP : (elmFilesToRead opts st ej).Nodup := dedupKeepFirst_nodup _ _
            have hmapeq : (elmFilesToRead opts st ej).map
                (fun p => pathRelative (pathDirname opts.elmJsonPath) p) =
                elmFiles.map FileRecord.path :=
              forall₂_map_eq _ _ (fun p r hpr => hpr.1.symm) hF2
            have hnodupR : (elmFiles.map FileRecord.path).Nodup := by
              rw [← hmapeq]
              refine List.Nodup.map_on ?_ hnodupP
              intro x hx y hy hxy
              exact hinj x (elmFilesToRead_sub_keys _ _ _ _ hx) y
                (elmFilesToRead_sub_keys _ _ _ _ hy) hxy
            have hprem : ∀ p ∈ elmFilesToRead opts st ej,
                ∃ c t, memLookup (updateMemoryCache st.memoryCache res.elmFiles)
                    (pathRelative (pathDirname opts.elmJsonPath) p) = some c ∧
                  fsReadLatestUpdatedTime st.fs p = some t ∧
                  jsGE c.lastUpdatedTime (some t) = true := by
              intro p hp
              obtain ⟨r, hrmem, hR⟩ := forall₂_mem_left hF2 p hp
              obtain ⟨hpath, t, hstat, hle⟩ := hR
              refine ⟨r, t, ?_, hstat, ?_⟩
              · rw [← hpath, hresf]
                exact memLookup_update_self _ _ hnodupR r hrmem
              · simp [jsGE, hle]
            obtain ⟨rs2, hPF2⟩ := processFiles_all_hits env opts
              (pathDirname opts.elmJsonPath) hw (elmFilesToRead opts st ej)
              (prepareWorkers { st with
                memoryCache := updateMemoryCache st.memoryCache res.elmFiles,
                events := [] })
              (fun p hp => hprem p hp)
            simp only [getProjectFiles]
            rw [show readElmJson opts { st with
                memoryCache := updateMemoryCache st.memoryCache res.elmFiles,
                events := ([] : List Ev) } = Except.ok raw from hEJ]
            dsimp only [ ]
            rw [hJP]
            dsimp only [ ]
            rw [show scanResults opts { st with
                memoryCache := updateMemoryCache st.memoryCache res.elmFiles,
                events := ([] : List Ev) } ej = scanResults opts st ej from rfl]
            rw [if_neg hguard]
            rw [show elmFilesToRead opts { st with
                memoryCache := updateMemoryCache st.memoryCache res.elmFiles,
                events := ([] : List Ev) } ej = elmFilesToRead opts st ej from rfl]
            rw [hPF2]
            dsimp only [ ]
            simp [prepareWorkers, terminateWorkers, isParseDispatchEv, List.any_map]

/-- Witness for C1: a fresher stored entry is returned unchanged with only a
stat, and the second pass over the unchanged sample project dispatches no
parse. -/
theorem watch_mtime_hit_idempotent_witness :
    Sample.opts.watch = true ∧
    readFile Sample.env Sample.opts "proj" Sample.stMemFresh "proj/src/A.elm" =
      (.ok Sample.cacheRecFresh,
       { Sample.stMemFresh with
           events := Sample.stMemFresh.events ++ [Ev.statMtime "proj/src/A.elm"] }) ∧
    ((getProjectFiles Sample.env Sample.opts Sample.stPass2).2.events.any
        isParseDispatchEv) = false := by
  refine ⟨rfl, ?_, ?_⟩
  · exact watch_mtime_hit_idempotent.1 Sample.env Sample.opts "proj" Sample.stMemFresh
      "proj/src/A.elm" 10 Sample.cacheRecFresh rfl (by decide) (by decide) (by decide)
  · exact watch_mtime_hit_idempotent.2 Sample.env Sample.opts (Sample.stOf Sample.fsGood)
      Sample.res1 Sample.pass1.2 rfl (by decide) (by decide) rfl


/-- A scheduler step preserves the cold-pass invariants: every task works on
the shared content (or has settled), every durable-cache write of the trace
is keyed by its hash, and every durable entry is an original one or keyed by
that hash. -/
theorem stepBatch_cold_inv (env : Env) (fs : FileSystem) (rb : String)
    (s : String) (fc0 : List (Nat × Ast)) (b : BatchSt) (i : Nat)
    (hT : ∀ t ∈ b.tasks, coldOk fs s t)
    (hE : ∀ k, Ev.cacheWrite k ∈ b.events → k = contentHash s)
    (hC : ∀ e ∈ b.fileCache, e ∈ fc0 ∨ e.fst = contentHash s) :
    (∀ t ∈ (stepBatch env fs rb b i).tasks, coldOk fs s t) ∧
    (∀ k, Ev.cacheWrite k ∈ (stepBatch env fs rb b i).events → k = contentHash s) ∧
    (∀ e ∈ (stepBatch env fs rb b i).fileCache, e ∈ fc0 ∨ e.fst = contentHash s) := by
  cases hget : b.tasks.get? i with
  | none =>
    simp only [stepBatch, hget]
    exact ⟨hT, hE, hC⟩
  | some t =>
    have ht : coldOk fs s t := hT t (List.get?_mem hget)
    have hset : ∀ (t2 : TaskSt), coldOk fs s t2 →
        ∀ t3 ∈ b.tasks.set i t2, coldOk fs s t3 := by
      intro t2 h2 t3 h3
      rcases List.mem_or_eq_of_mem_set h3 with h | h
      · exact hT t3 h
      · rw [h]; exact h2
    cases t with
    | toRead p =>
      have hread : fsReadFile fs p = Except.ok s := ht
      simp only [stepBatch, hget, stepTask, hread]
      refine ⟨hset _ rfl, ?_, hC⟩
      intro k hk
      rcases List.mem_append.mp hk with h | h
      · exact hE k h
      · simp at h
    | toLookup p source =>
      have hsrc : source = s := ht
      subst hsrc
      cases hcl : cacheLookup b.fileCache (contentHash source) with
      | some ast =>
        simp only [stepBatch, hget, stepTask, hcl]
        exact ⟨hset _ trivial, hE, hC⟩
      | none =>
        simp only [stepBatch, hget, stepTask, hcl]
        exact ⟨hset _ rfl, hE, hC⟩
    | toParse p source =>
      have hsrc : source = s := ht
      subst hsrc
      cases hp : env.parse source with
      | some ast =>
        simp only [stepBatch, hget, stepTask, hp]
        refine ⟨hset _ rfl, ?_, hC⟩
        intro k hk
        rcases List.mem_append.mp hk with h | h
        · exact hE k h
        · simp at h
      | none =>
        simp only [stepBatch, hget, stepTask, hp]
        refine ⟨hset _ trivial, ?_, hC⟩
        intro k hk
        rcases List.mem_append.mp hk with h | h
        · exact hE k h
        · simp at h
    | toWrite p source ast =>
      have hsrc : source = s := ht
      subst hsrc
      simp only [stepBatch, hget, stepTask]
      refine ⟨hset _ trivial, ?_, ?_⟩
      · intro k hk
        rcases List.mem_append.mp hk with h | h
        · exact hE k h
        · simp at h
          exact h
      · intro e he
        rcases List.mem_cons.mp he with h | h
        · rw [h]
          exact Or.inr rfl
        · exact hC e h
    | failed p e =>
      simp only [stepBatch, hget, stepTask]
      exact ⟨hset _ trivial, hE, hC⟩
    | done p r =>
      simp only [stepBatch, hget, stepTask]
      exact ⟨hset _ trivial, hE, hC⟩

/-- Under every schedule of a cold pass over files holding the same content,
all durable-cache writes and all new durable entries are keyed by the one
content hash: the files share a single durable-cache key. -/
theorem runBatch_cold_inv (env : Env) (fs : FileSystem) (rb : String)
    (s : String) (fc0 : List (Nat × Ast)) :
    ∀ (sch : List Nat) (b : BatchSt),
      (∀ t ∈ b.tasks, coldOk fs s t) →
      (∀ k, Ev.cacheWrite k ∈ b.events → k = contentHash s) →
      (∀ e ∈ b.fileCache, e ∈ fc0 ∨ e.fst = contentHash s) →
      (∀ k, Ev.cacheWrite k ∈ (runBatch env fs rb b sch).events → k = contentHash s) ∧
      (∀ e ∈ (runBatch env fs rb b sch).fileCache, e ∈ fc0 ∨ e.fst = contentHash s) := by
  intro sch
  induction sch with
  | nil => intro b _ hE hC; exact ⟨hE, hC⟩
  | cons i rest ih =>
    intro b hT hE hC
    obtain ⟨h1, h2, h3⟩ := stepBatch_cold_inv env fs rb s fc0 b i hT hE hC
    exact ih (stepBatch env fs rb b i) h1 h2 h3

/-- A scheduler step preserves the hot-pass invariants: the durable cache
already holds the shared content, so no task ever reaches the parse phase
and the cache stays unchanged. -/
theorem stepBatch_hot_inv (env : Env) (fs : FileSystem) (rb : String)
    (s : String) (a : Ast) (fc : List (Nat × Ast)) (b : BatchSt) (i : Nat)
    (hhit : cacheLookup fc (contentHash s) = some a)
    (hfc : b.fileCache = fc)
    (hT : ∀ t ∈ b.tasks, hotOk fs s t)
    (hE : ∀ src, Ev.parseDispatch src ∉ b.events) :
    (stepBatch env fs rb b i).fileCache = fc ∧
    (∀ t ∈ (stepBatch env fs rb b i).tasks, hotOk fs s t) ∧
    (∀ src, Ev.parseDispatch src ∉ (stepBatch env fs rb b i).events) := by
  cases hget : b.tasks.get? i with
  | none =>
    simp only [stepBatch, hget]
    exact ⟨hfc, hT, hE⟩
  | some t =>
    have ht : hotOk fs s t := hT t (List.get?_mem hget)
    have hset : ∀ (t2 : TaskSt), hotOk fs s t2 →
        ∀ t3 ∈ b.tasks.set i t2, hotOk fs s t3 := by
      intro t2 h2 t3 h3
      rcases List.mem_or_eq_of_mem_set h3 with h | h
      · exact hT t3 h
      · rw [h]; exact h2
    cases t with
    | toRead p =>
      have hread : fsReadFile fs p = Except.ok s := ht
      simp only [stepBatch, hget, stepTask, hread]
      refine ⟨hfc, hset _ rfl, ?_⟩
      intro src hk
      rcases List.mem_append.mp hk with h | h
      · exact hE src h
      · simp at h
    | toLookup p source =>
      have hsrc : source = s := ht
      subst hsrc
      have hcl : cacheLookup b.fileCache (contentHash source) = some a := by
        rw [hfc]; exact hhit
      simp only [stepBatch, hget, stepTask, hcl]
      exact ⟨hfc, hset _ trivial, hE⟩
    | toParse p source => exact ht.elim
    | toWrite p source ast => exact ht.elim
    | failed p e => exact ht.elim
    | done p r =>
      simp only [stepBatch, hget, stepTask]
      exact ⟨hfc, hset _ trivial, hE⟩

/-- Once the durable cache holds the shared content, every schedule of a
pass over the two files dispatches no parse. -/
theorem runBatch_hot_inv (env : Env) (fs : FileSystem) (rb : String)
    (s : String) (a : Ast) (fc : List (Nat × Ast))
    (hhit : cacheLookup fc (contentHash s) = some a) :
    ∀ (sch : List Nat) (b : BatchSt),
      b.fileCache = fc →
      (∀ t ∈ b.tasks, hotOk fs s t) →
      (∀ src, Ev.parseDispatch src ∉ b.events) →
      (∀ src, Ev.parseDispatch src ∉ (runBatch env fs rb b sch).events) := by
  intro sch
  induction sch with
  | nil => intro b _ _ hE; exact hE
  | cons i rest ih =>
    intro b hfc hT hE
    obtain ⟨h1, h2, h3⟩ := stepBatch_hot_inv env fs rb s a fc b i hhit hfc hT hE
    exact ih (stepBatch env fs rb b i) h1 h2 h3

/-- C4 counterexample: in the canonical interleaving of the concurrent cold
pass — both content reads, then both durable-cache lookups, then the parses,
then the un-awaited cacheFile writes — the two byte-identical files both
miss the still-empty durable cache and the batch dispatches TWO parses (and
lands two idempotent writes at the one key), refuting the claimed single
parse invocation of the end-to-end cold-start scenario. -/
theorem cold_concurrent_two_parses_counterexample :
    batchDone (runBatch Sample.env Sample.fsGood "proj"
      (initBatch ["proj/src/A.elm", "proj/src/B.elm"] []) [0, 1, 0, 1, 0, 1, 0, 1]) = true ∧
    (runBatch Sample.env Sample.fsGood "proj"
      (initBatch ["proj/src/A.elm", "proj/src/B.elm"] []) [0, 1, 0, 1, 0, 1, 0, 1]).events =
      [Ev.readContent "proj/src/A.elm", Ev.readContent "proj/src/B.elm",
       Ev.parseDispatch "module A", Ev.parseDispatch "module A",
       Ev.cacheWrite (contentHash "module A"), Ev.cacheWrite (contentHash "module A")] ∧
    ¬ ((runBatch Sample.env Sample.fsGood "proj"
      (initBatch ["proj/src/A.elm", "proj/src/B.elm"] []) [0, 1, 0, 1, 0, 1, 0, 1]).events.countP
        isParseDispatchEv = 1) := by
  refine ⟨by decide, by decide, by decide⟩

/-- C4 amended: two byte-identical files share one durable-cache key, the
hash of their content: under every interleaving of the cold pass each
durable write and each new durable entry is keyed by that one hash, and once
an entry for the content is present any schedule of a later pass reuses it
for both files with zero parse dispatches; but the cold pass itself does not
guarantee a single parse invocation — the readFile promises run concurrently
and the cacheFile write is not awaited, so the dispatch count depends on the
schedule (the concrete conjunct shows a fully sequential completion order
dispatching one parse, while the counterexample shows the canonical
interleaving dispatching two). -/
theorem content_hash_shared_entry (env : Env) (fs : FileSystem) (rb : String)
    (p1 p2 s : String) (t1 t2 : Nat) (fc0 : List (Nat × Ast))
    (h1 : fsLookup fs p1 = some (.file s t1))
    (h2 : fsLookup fs p2 = some (.file s t2)) :
    (∀ sch : List Nat,
      (∀ k, Ev.cacheWrite k ∈ (runBatch env fs rb (initBatch [p1, p2] fc0) sch).events →
        k = contentHash s) ∧
      (∀ e ∈ (runBatch env fs rb (initBatch [p1, p2] fc0) sch).fileCache,
        e ∈ fc0 ∨ e.fst = contentHash s)) ∧
    (∀ (fc : List (Nat × Ast)) (a : Ast), cacheLookup fc (contentHash s) = some a →
      ∀ (sch : List Nat) (src : String),
        Ev.parseDispatch src ∉ (runBatch env fs rb (initBatch [p1, p2] fc) sch).events) ∧
    ((runBatch Sample.env Sample.fsGood "proj"
        (initBatch ["proj/src/A.elm", "proj/src/B.elm"] []) [0, 0, 0, 0, 1, 1]).events.countP
          isParseDispatchEv = 1) := by
  have htasks : ∀ t ∈ (initBatch [p1, p2] fc0).tasks, coldOk fs s t := by
    intro t ht
    simp only [initBatch, List.map_cons, List.map_nil, List.mem_cons,
      List.not_mem_nil, or_false] at ht
    rcases ht with h | h
    · rw [h]
      show fsReadFile fs p1 = Except.ok s
      simp [fsReadFile, h1]
    · rw [h]
      show fsReadFile fs p2 = Except.ok s
      simp [fsReadFile, h2]
  refine ⟨?_, ?_, by decide⟩
  · intro sch
    refine runBatch_cold_inv env fs rb s fc0 sch (initBatch [p1, p2] fc0) htasks ?_ ?_
    · intro k hk
      exact absurd hk (List.not_mem_nil _)
    · intro e he
      exact Or.inl he
  · intro fc a hhit sch src
    refine runBatch_hot_inv env fs rb s a fc hhit sch (initBatch [p1, p2] fc) rfl ?_ ?_ src
    · intro t ht
      simp only [initBatch, List.map_cons, List.map_nil, List.mem_cons,
        List.not_mem_nil, or_false] at ht
      rcases ht with h | h
      · rw [h]
        show fsReadFile fs p1 = Except.ok s
        simp [fsReadFile, h1]
      · rw [h]
        show fsReadFile fs p2 = Except.ok s
        simp [fsReadFile, h2]
    · intro src2
      exact List.not_mem_nil _

/-- Witness for C4 (amended): the key-sharing and the zero-dispatch later
pass at the sample project, under the canonical interleaving. -/
theorem content_hash_shared_entry_witness :
    fsLookup Sample.fsGood "proj/src/A.elm" = some (.file "module A" 10) ∧
    (∀ k, Ev.cacheWrite k ∈ (runBatch Sample.env Sample.fsGood "proj"
        (initBatch ["proj/src/A.elm", "proj/src/B.elm"] []) [0, 1, 0, 1, 0, 1, 0, 1]).events →
      k = contentHash "module A") ∧
    (Ev.parseDispatch "module A" ∉ (runBatch Sample.env Sample.fsGood "proj"
        (initBatch ["proj/src/A.elm", "proj/src/B.elm"]
          [(contentHash "module A", 8)]) [0, 1, 0, 1, 0, 1, 0, 1]).events) :=
  ⟨by decide,
   fun k => ((content_hash_shared_entry Sample.env Sample.fsGood "proj"
     "proj/src/A.elm" "proj/src/B.elm" "module A" 10 11 []
     (by decide) (by decide)).1 [0, 1, 0, 1, 0, 1, 0, 1]).1 k,
   (content_hash_shared_entry Sample.env Sample.fsGood "proj"
     "proj/src/A.elm" "proj/src/B.elm" "module A" 10 11 []
     (by decide) (by decide)).2.1 [(contentHash "module A", 8)] 8 (by decide)
     [0, 1, 0, 1, 0, 1, 0, 1] "module A"⟩

end ElmReview
